import Mathlib

/-!
Verification of the scoped web crawler (`src/crawler.js`, current variant:
`normalizeUrl` / `siteRootFromSeed` / `extractLinks` / `crawlDataset`).

The development shallowly embeds the crawler in Lean:

* URLs are modelled by a small WHATWG-style parser/serializer for the
  `http`/`https` scheme space the crawler operates in (`parseC`,
  `serializeC`).  A JS `new URL(u)` that throws is modelled by `parseC`
  returning `none`.  Host case-folding, percent-encoding and port elision
  are not modelled; none of the verified properties depend on them.
* `cheerio.load(html); $("a[href]")` is modelled by an oracle
  `Web.anchors : String → List String` giving the `href` attributes of a
  document in document order, and `axios.get` by an oracle
  `Web.fetch : String → FetchOutcome`.
* MongoDB collections are modelled as lists of records; the unique indexes
  ensured by `ensureIndexes` are reflected in the duplicate-swallowing
  insert operations (`insertPageOnce`, `insertEdges`), matching the
  `catch (err) { if (err?.code !== 11000) throw err; }` handlers.
* The `while (queue.length)` loop is embedded with explicit fuel
  (`crawlLoop`); running out of fuel yields `none`, and the termination
  theorem exhibits sufficient fuel.
-/

/-- Scheme of a URL in the model; the crawler's URL space is `http`/`https`
(the canonicalizer forces `https:` and the seeds are `https`). -/
inductive Scheme where
  | http
  | https
deriving DecidableEq, Repr

/-- Serialization of the scheme together with the `://` separator,
as it appears in a serialized special URL. -/
def schemeChars : Scheme → List Char
  | .http => ['h', 't', 't', 'p', ':', '/', '/']
  | .https => ['h', 't', 't', 'p', 's', ':', '/', '/']

/-- Parsed URL: host, path as a list of segments (nonempty for a parsed
URL; `[[]]` is the root path `/`), optional query and fragment.
Models the components of a WHATWG `URL` object for special schemes. -/
structure UrlC where
  scheme : Scheme
  host : List Char
  path : List (List Char)
  query : Option (List Char)
  fragment : Option (List Char)
deriving DecidableEq, Repr

/-- Characters that continue the host span: anything up to the first
`/`, `?` or `#`. -/
def hostChar (c : Char) : Bool :=
  !(c = '/' || c = '?' || c = '#')

/-- Minimal model of WHATWG host validation: a space is forbidden
(so strings such as `http://` with an empty host, or hosts containing
spaces, fail to parse, as `new URL` throws on them). -/
def hostOk (c : Char) : Bool :=
  !(c = ' ')

/-- Splitting a character list on `/`; `splitSlash "a//b"` is
`["a", "", "b"]` and `splitSlash ""` is `[""]`. -/
def splitSlash : List Char → List (List Char)
  | [] => [[]]
  | '/' :: cs => [] :: splitSlash cs
  | c :: cs =>
    match splitSlash cs with
    | s :: ss => (c :: s) :: ss
    | [] => [[c]]

/-- Model of WHATWG dot-segment handling during path parsing: `..` pops
the previous segment, `.` is dropped, and a final dot segment leaves a
trailing empty segment.  The accumulator holds output segments in
reverse. -/
def removeDotGo : List (List Char) → List (List Char) → List (List Char)
  | out, [] => out.reverse
  | out, seg :: rest =>
    if seg = ['.', '.'] then
      if rest = [] then (([] : List Char) :: out.drop 1).reverse
      else removeDotGo (out.drop 1) rest
    else if seg = ['.'] then
      if rest = [] then (([] : List Char) :: out).reverse
      else removeDotGo out rest
    else removeDotGo (seg :: out) rest

/-- Dot-segment removal on a parsed path. -/
def removeDot (segs : List (List Char)) : List (List Char) :=
  removeDotGo [] segs

/-- Predicate on a character: it neither ends the path span nor separates
segments. -/
def pathChar (c : Char) : Bool :=
  !(c = '?' || c = '#')

/-- Parser for everything after `scheme://`: host up to `/`, `?` or `#`,
then path, optional query, optional fragment. -/
def parseAfterScheme (sch : Scheme) (rest : List Char) : Option UrlC :=
  let host := rest.takeWhile hostChar
  let afterHost := rest.dropWhile hostChar
  if host.isEmpty || !(host.all hostOk) then none
  else
    let pathChars := afterHost.takeWhile pathChar
    let afterPath := afterHost.dropWhile pathChar
    let segs : List (List Char) :=
      match pathChars with
      | [] => [[]]
      | _ :: cs => removeDot (splitSlash cs)
    match afterPath with
    | '?' :: r =>
      some ⟨sch, host, segs, some (r.takeWhile (fun c => !(c = '#'))),
        match r.dropWhile (fun c => !(c = '#')) with
        | '#' :: f => some f
        | _ => none⟩
    | '#' :: f => some ⟨sch, host, segs, none, some f⟩
    | _ => some ⟨sch, host, segs, none, none⟩

/-- Model of `new URL(u)` restricted to absolute `http`/`https` URLs;
`none` models a thrown `TypeError: Invalid URL`. -/
def parseC : List Char → Option UrlC
  | 'h' :: 't' :: 't' :: 'p' :: 's' :: ':' :: '/' :: '/' :: rest => parseAfterScheme .https rest
  | 'h' :: 't' :: 't' :: 'p' :: ':' :: '/' :: '/' :: rest => parseAfterScheme .http rest
  | _ => none

/-- Path serialization: every segment is preceded by `/`, so `[""]`
serializes to `/` and `["a", ""]` to `/a/`. -/
def joinSegs (segs : List (List Char)) : List Char :=
  (segs.map (fun seg => '/' :: seg)).flatten

/-- Model of `url.toString()` for a parsed URL. -/
def serializeC (u : UrlC) : List Char :=
  schemeChars u.scheme ++ u.host ++ joinSegs u.path
    ++ (match u.query with | some q => '?' :: q | none => [])
    ++ (match u.fragment with | some f => '#' :: f | none => [])

/-- Validity of a path segment: no `/`, `?`, `#`, and no dot segment
(parsed paths are dot-free). -/
def segOk (seg : List Char) : Bool :=
  seg.all (fun c => pathChar c && !(c = '/')) && !(seg = ['.']) && !(seg = ['.', '.'])

/-- Well-formedness of a URL value, as established by the parser:
nonempty valid host, nonempty dot-free path, hash-free query. -/
def wf (u : UrlC) : Bool :=
  !u.host.isEmpty && u.host.all (fun c => hostChar c && hostOk c)
    && !u.path.isEmpty && u.path.all segOk
    && (match u.query with | some q => q.all (fun c => !(c = '#')) | none => true)

/-- Model of `s.endsWith("/") ? s.slice(0, -1) : s` in `normalizeUrl`. -/
def stripSlash (s : List Char) : List Char :=
  if s.getLast? = some '/' then s.dropLast else s

/-- Effect of `url.hash = ""` and `url.protocol = "https:"` on the
components of a URL object. -/
def normC (u : UrlC) : UrlC :=
  { u with fragment := none, scheme := .https }

/-- Model of `normalizeUrl` from `src/crawler.js`: parse, strip the
fragment, force `https:`, serialize, and strip one trailing slash.
`none` models the `new URL` constructor throwing. -/
def normalizeUrl (u : String) : Option String :=
  (parseC u.data).map fun p => ⟨stripSlash (serializeC (normC p))⟩

/-- Component-level effect of stripping one trailing slash from the
serialization of a fragment-free URL: it shortens a query ending in `/`,
else drops a trailing empty path segment (the root path `/` reparses to
itself). -/
def stripUrlC (u : UrlC) : UrlC :=
  match u.query with
  | some q => if q.getLast? = some '/' then { u with query := some q.dropLast } else u
  | none =>
    if u.path.getLast? = some ([] : List Char) then
      if u.path = [[]] then u else { u with path := u.path.dropLast }
    else u

/-- Model of `siteRootFromSeed` from `src/crawler.js`: the seed's origin
plus the fixed owner segment, i.e. `` `${u.origin}/~avamckenney/` ``. -/
def siteRootFromSeed (seed : String) : Option String :=
  (parseC seed.data).map fun u => ⟨schemeChars u.scheme ++ u.host ++ "/~avamckenney/".data⟩

/-- Model of JS `s.startsWith(pre)`. -/
def strStartsWith (s pre : String) : Bool :=
  pre.data.isPrefixOf s.data

/-- Boundary test of the crawler: `norm.startsWith(siteRoot)` applied to
the canonical form of a URL. -/
def inBoundary (url siteRoot : String) : Bool :=
  strStartsWith url siteRoot

/-- Model of relative reference resolution `new URL(href, base)` for the
crawler's URL space.  An `href` carrying an `http(s)://` prefix must parse
absolutely or the resolution throws (`none`); otherwise the reference is
resolved against the base: network-path (`//`), absolute-path (`/`),
query-only (`?`), fragment-only (`#`) or relative-path references.
Exotic forms (other schemes, `https:` without slashes) are modelled as
failures; the crawler's boundary filter discards such links anyway. -/
def resolveC (href : List Char) (base : UrlC) : Option UrlC :=
  match href with
  | 'h' :: 't' :: 't' :: 'p' :: 's' :: ':' :: '/' :: '/' :: rest => parseAfterScheme .https rest
  | 'h' :: 't' :: 't' :: 'p' :: ':' :: '/' :: '/' :: rest => parseAfterScheme .http rest
  | '/' :: '/' :: rest => parseAfterScheme base.scheme rest
  | '/' :: _ =>
    match parseAfterScheme base.scheme (base.host ++ href) with
    | some u => some u
    | none => none
  | '?' :: r =>
    some { base with
      query := some (r.takeWhile (fun c => !(c = '#'))),
      fragment :=
        match r.dropWhile (fun c => !(c = '#')) with
        | '#' :: f => some f
        | _ => none }
  | '#' :: f => some { base with fragment := some f }
  | [] => some base
  | c :: _ =>
    if c = 'h' ∧ ("http:".data.isPrefixOf href ∨ "https:".data.isPrefixOf href) then none
    else
      let pathPart := href.takeWhile pathChar
      let afterPath := href.dropWhile pathChar
      let dir := base.path.dropLast
      let segs := removeDot (dir ++ splitSlash pathPart)
      let segs := if segs = [] then [[]] else segs
      match afterPath with
      | '?' :: r =>
        some ⟨base.scheme, base.host, segs, some (r.takeWhile (fun c => !(c = '#'))),
          match r.dropWhile (fun c => !(c = '#')) with
          | '#' :: f => some f
          | _ => none⟩
      | '#' :: f => some ⟨base.scheme, base.host, segs, none, some f⟩
      | _ => some ⟨base.scheme, base.host, segs, none, none⟩

/-- One extraction step of the crawler's link loop:
`normalizeUrl(new URL(href, baseUrl).toString())`; `none` models either
constructor throwing. -/
def resolveAndNormalize (baseUrl href : String) : Option String :=
  match parseC baseUrl.data with
  | none => none
  | some b =>
    match resolveC href.data b with
    | none => none
    | some u => normalizeUrl ⟨serializeC u⟩

/-- Worker of `dedupFirst`: `seen` holds the elements already emitted. -/
def dedupGo (seen : List String) : List String → List String
  | [] => []
  | x :: xs => if x ∈ seen then dedupGo seen xs else x :: dedupGo (x :: seen) xs

/-- Order-preserving deduplication keeping first occurrences; model of
`[...new Set(links)]`. -/
def dedupFirst (l : List String) : List String :=
  dedupGo [] l

/-- Option-valued map over a list that fails as soon as one element
fails; models a JS loop whose body may throw. -/
def mapOption (f : α → Option β) : List α → Option (List β)
  | [] => some []
  | x :: xs =>
    match f x, mapOption f xs with
    | some y, some ys => some (y :: ys)
    | _, _ => none

/-- Model of `extractLinks(html, baseUrl)` of the current crawler: for each
non-empty `href` of the document, resolve and canonicalize — with no
try/catch, so a single unresolvable `href` aborts the whole extraction
(`none`) — then deduplicate.  The `hrefs` argument is the anchor list the
cheerio query yields for the document. -/
def extractLinks (hrefs : List String) (baseUrl : String) : Option (List String) :=
  (mapOption (resolveAndNormalize baseUrl) (hrefs.filter (fun h => !(h = "")))).map dedupFirst

/-- Model of `extractLinksFromCheerio($, baseUrl)` of the library-driven
crawler variant: identical except that each unresolvable `href` is
skipped (`try { … } catch { /* ignore bad URLs */ }`). -/
def extractLinksFromCheerio (hrefs : List String) (baseUrl : String) : List String :=
  dedupFirst ((hrefs.filter (fun h => !(h = ""))).filterMap (resolveAndNormalize baseUrl))

/-- Persisted page document of the `pages` collection:
`{dataset, url, status, html, outLinks, fetchedAt, error?}`.  `fetchedAt`
is modelled by a run-local step counter standing in for `new Date()`. -/
structure PageRecord where
  dataset : String
  url : String
  status : Nat
  html : Option String
  outLinks : List String
  fetchedAt : Nat
  error : Option String
deriving DecidableEq, Repr

/-- Persisted edge document of the `links` collection:
`{dataset, from, to}`. -/
structure LinkEdge where
  dataset : String
  «from» : String
  «to» : String
deriving DecidableEq, Repr

/-- Match on the `(dataset, url)` unique key of the `pages` collection. -/
def pageMatches (d u : String) (r : PageRecord) : Bool :=
  r.dataset = d && r.url = u

/-- Model of `pagesCol().findOne({dataset, url})`. -/
def findPage (pages : List PageRecord) (d u : String) : Option PageRecord :=
  pages.find? (pageMatches d u)

/-- All records of a `(dataset, url)` key, for stating uniqueness. -/
def pagesFor (pages : List PageRecord) (d u : String) : List PageRecord :=
  pages.filter (pageMatches d u)

/-- Model of `pagesCol().insertOne(rec).catch(swallow 11000)`: under the
`(dataset, url)` unique index the insert is a no-op when a record with the
same key exists. -/
def insertPageOnce (pages : List PageRecord) (r : PageRecord) : List PageRecord :=
  if (findPage pages r.dataset r.url).isSome then pages else pages ++ [r]

/-- Model of `pagesCol().deleteOne({dataset, url})`: removes the first
(under the unique index, the only) matching record. -/
def deleteOnePage (pages : List PageRecord) (d u : String) : List PageRecord :=
  pages.eraseP (pageMatches d u)

/-- Match on the `(dataset, from)` key used by `deleteMany`. -/
def edgeFromMatches (d u : String) (e : LinkEdge) : Bool :=
  e.dataset = d && e.«from» = u

/-- Model of `linksCol().deleteMany({dataset, from})`. -/
def deleteEdgesFrom (links : List LinkEdge) (d u : String) : List LinkEdge :=
  links.filter (fun e => !(edgeFromMatches d u e))

/-- All edges of a `(dataset, from)` key. -/
def edgesFrom (links : List LinkEdge) (d u : String) : List LinkEdge :=
  links.filter (edgeFromMatches d u)

/-- Duplicate test under the `(dataset, from, to)` unique index. -/
def sameEdgeKey (e e' : LinkEdge) : Bool :=
  e.dataset = e'.dataset && e.«from» = e'.«from» && e.«to» = e'.«to»

/-- Model of `linksCol().insertMany(edges, {ordered:false}).catch(swallow
E11000)`: every edge whose `(dataset, from, to)` key is not yet present is
inserted, duplicate-key failures are swallowed. -/
def insertEdges (links : List LinkEdge) (new : List LinkEdge) : List LinkEdge :=
  new.foldl (fun acc e => if acc.any (sameEdgeKey e) then acc else acc ++ [e]) links

/-- Outcome of `axios.get(norm, { timeout: 20000 })`: a resolved response
(status and body text) or a rejection carrying the HTTP status of
`e.response` when one was received, and the error message. -/
inductive FetchOutcome where
  | ok (status : Nat) (body : String)
  | err (status? : Option Nat) (msg : String)
deriving DecidableEq, Repr

/-- External world of a crawl: `fetch` models `axios.get` and `anchors`
models the `href` attributes `cheerio` finds in a document (in document
order). -/
structure Web where
  fetch : String → FetchOutcome
  anchors : String → List String

/-- In-flight state of one `crawlDataset` run: the frontier queue and seen
set, the two collections, the trace of URLs actually fetched this run
(ghost data recording each `axios.get` call), and the `fetchedAt` clock. -/
structure CrawlState where
  queue : List String
  seen : List String
  pages : List PageRecord
  links : List LinkEdge
  fetchedTrace : List String
  now : Nat
deriving DecidableEq, Repr

/-- Fetch-and-record part of a loop iteration, entered once `norm` is in
boundary, fresh, and free of a prior successful record: fetch, then on
rejection insert a failure record (status from `e.response` or 0, `html:
null`, empty `outLinks`, the error message) and continue; on success
extract links (a `new URL` throw inside `extractLinks` lands in the same
catch block, with no response status), filter them to the subtree, insert
the page and its non-self edges, and enqueue the non-self in-boundary
links. -/
def processFetch (env : Web) (dataset siteRoot : String) (st : CrawlState)
    (norm : String) : CrawlState :=
  match env.fetch norm with
  | .err status? msg =>
    { st with
      pages := insertPageOnce st.pages
        ⟨dataset, norm, status?.getD 0, none, [], st.now, some msg⟩,
      fetchedTrace := st.fetchedTrace ++ [norm],
      now := st.now + 1 }
  | .ok status body =>
    match extractLinks (env.anchors body) norm with
    | none =>
      { st with
        pages := insertPageOnce st.pages
          ⟨dataset, norm, 0, none, [], st.now, some "Invalid URL"⟩,
        fetchedTrace := st.fetchedTrace ++ [norm],
        now := st.now + 1 }
    | some outLinks =>
      let withinSite := outLinks.filter (fun l => inBoundary l siteRoot)
      let edges := (withinSite.filter (fun l => !(l = norm))).map
        (fun l => LinkEdge.mk dataset norm l)
      { st with
        pages := insertPageOnce st.pages
          ⟨dataset, norm, status, some body, withinSite, st.now, none⟩,
        links := insertEdges st.links edges,
        queue := st.queue ++ withinSite.filter (fun l => !(l = norm)),
        fetchedTrace := st.fetchedTrace ++ [norm],
        now := st.now + 1 }

/-- Truthiness of `existing.html` in the resume check: a non-null,
non-empty body. -/
def htmlTruthy (r : PageRecord) : Bool :=
  match r.html with
  | some h => !(h = "")
  | none => false

/-- One iteration of the `while (queue.length)` loop applied to a dequeued
`url` (`st.queue` already holds the rest of the queue): skip falsy urls,
canonicalize (a throw is `none`), enforce the boundary, claim the URL in
the seen set, consult the persisted record — skip on a prior success with
body, delete a prior failure and its outgoing edges — then fetch and
record. -/
def processUrl (env : Web) (dataset siteRoot : String) (st : CrawlState)
    (url : String) : Option CrawlState :=
  if url = "" then some st
  else
    match normalizeUrl url with
    | none => none
    | some norm =>
      if inBoundary norm siteRoot then
        if norm ∈ st.seen then some st
        else
          let st := { st with seen := norm :: st.seen }
          match findPage st.pages dataset norm with
          | some existing =>
            if existing.status = 200 ∧ htmlTruthy existing then some st
            else
              some (processFetch env dataset siteRoot
                { st with
                  pages := deleteOnePage st.pages dataset norm,
                  links := deleteEdgesFrom st.links dataset norm } norm)
          | none => some (processFetch env dataset siteRoot st norm)
      else some st

/-- Fuelled embedding of the frontier loop; `none` only on fuel
exhaustion or a modelled throw. -/
def crawlLoop (env : Web) (dataset siteRoot : String) : Nat → CrawlState → Option CrawlState
  | fuel, st =>
    match st.queue with
    | [] => some st
    | url :: rest =>
      match fuel with
      | 0 => none
      | fuel + 1 =>
        (processUrl env dataset siteRoot { st with queue := rest } url).bind
          (crawlLoop env dataset siteRoot fuel)

/-- The `DATASETS` registry of `src/crawler.js`. -/
def DATASETS (name : String) : Option String :=
  if name = "tinyfruits" then some "https://people.scs.carleton.ca/~avamckenney/tinyfruits/N-0.html"
  else if name = "fruits100" then some "https://people.scs.carleton.ca/~avamckenney/fruits100/N-0.html"
  else if name = "fruitsA" then some "https://people.scs.carleton.ca/~avamckenney/fruitsA/N-0.html"
  else if name = "fruitgraph" then some "https://people.scs.carleton.ca/~avamckenney/fruitgraph/N-0.html"
  else none

/-- Model of `crawlDataset(dataset)` run against an initial database
state `(pages0, links0)` (the persisted state of prior runs): resolve the
seed, derive the boundary, and drain the frontier seeded with the seed
URL.  `none` models a thrown error (unknown dataset or a modelled crash),
or fuel exhaustion. -/
def crawlDataset (env : Web) (dataset : String) (pages0 : List PageRecord)
    (links0 : List LinkEdge) (fuel clock : Nat) : Option CrawlState :=
  match DATASETS dataset with
  | none => none
  | some seed =>
    match siteRootFromSeed seed with
    | none => none
    | some siteRoot =>
      crawlLoop env dataset siteRoot fuel ⟨[seed], [], pages0, links0, [], clock⟩

lemma takeWhile_app {p : Char → Bool} {xs : List Char} (ys : List Char)
    (h : ∀ x ∈ xs, p x = true) :
    (xs ++ ys).takeWhile p = xs ++ ys.takeWhile p := by
  induction xs with
  | nil => simp
  | cons a l ih =>
    simp only [List.cons_append, List.takeWhile]
    rw [h a (by simp)]
    simp [ih (fun x hx => h x (by simp [hx]))]

lemma dropWhile_app {p : Char → Bool} {xs : List Char} (ys : List Char)
    (h : ∀ x ∈ xs, p x = true) :
    (xs ++ ys).dropWhile p = ys.dropWhile p := by
  induction xs with
  | nil => simp
  | cons a l ih =>
    simp only [List.cons_append, List.dropWhile]
    rw [h a (by simp)]
    exact ih (fun x hx => h x (by simp [hx]))

lemma takeWhile_cons_neg {p : Char → Bool} {x : Char} (xs : List Char)
    (h : p x = false) : (x :: xs).takeWhile p = [] := by
  simp [List.takeWhile, h]

lemma dropWhile_cons_neg {p : Char → Bool} {x : Char} (xs : List Char)
    (h : p x = false) : (x :: xs).dropWhile p = x :: xs := by
  simp [List.dropWhile, h]

lemma takeWhile_all {p : Char → Bool} {xs : List Char}
    (h : ∀ x ∈ xs, p x = true) : xs.takeWhile p = xs :=
  List.takeWhile_eq_self_iff.mpr h

lemma dropWhile_all {p : Char → Bool} {xs : List Char}
    (h : ∀ x ∈ xs, p x = true) : xs.dropWhile p = [] := by
  induction xs with
  | nil => rfl
  | cons a l ih =>
    simp only [List.dropWhile]
    rw [h a (by simp)]
    exact ih (fun x hx => h x (by simp [hx]))

lemma joinSegs_nil : joinSegs [] = [] := rfl

lemma joinSegs_cons (s : List Char) (ps : List (List Char)) :
    joinSegs (s :: ps) = '/' :: (s ++ joinSegs ps) := by
  simp [joinSegs]

lemma joinSegs_append (a b : List (List Char)) :
    joinSegs (a ++ b) = joinSegs a ++ joinSegs b := by
  simp [joinSegs]

lemma splitSlash_ne_nil (cs : List Char) : splitSlash cs ≠ [] := by
  induction cs with
  | nil => simp [splitSlash]
  | cons c l ih =>
    by_cases hc : c = '/'
    · subst hc; simp [splitSlash]
    · rw [show splitSlash (c :: l) = match splitSlash l with
        | s :: ss => (c :: s) :: ss
        | [] => [[c]] by
          cases l with
          | nil => cases c with | mk v h => simp_all [splitSlash]
          | cons d t => cases c with | mk v h => simp_all [splitSlash]]
      match hm : splitSlash l with
      | s :: ss => simp
      | [] => simp

lemma splitSlash_cons_ne {c : Char} (cs : List Char) (hc : c ≠ '/') :
    splitSlash (c :: cs) = match splitSlash cs with
      | s :: ss => (c :: s) :: ss
      | [] => [[c]] := by
  cases cs with
  | nil => cases c with | mk v h => simp_all [splitSlash]
  | cons d t => cases c with | mk v h => simp_all [splitSlash]

lemma splitSlash_no_slash {s : List Char} (h : '/' ∉ s) : splitSlash s = [s] := by
  induction s with
  | nil => rfl
  | cons c l ih =>
    have hc : c ≠ '/' := fun hh => h (by simp [hh])
    rw [splitSlash_cons_ne l hc, ih (fun hh => h (by simp [hh]))]

lemma splitSlash_join {ps : List (List Char)} (hps : ∀ seg ∈ ps, '/' ∉ seg) :
    ∀ s : List Char, '/' ∉ s → splitSlash (s ++ joinSegs ps) = s :: ps := by
  induction ps with
  | nil =>
    intro s hs
    rw [joinSegs_nil, List.append_nil, splitSlash_no_slash hs]
  | cons p ps ih =>
    intro s hs
    induction s with
    | nil =>
      rw [List.nil_append, joinSegs_cons, splitSlash]
      rw [ih (fun seg hseg => hps seg (by simp [hseg])) p (hps p (by simp))]
    | cons c s' ihs =>
      have hc : c ≠ '/' := fun hh => hs (by simp [hh])
      rw [List.cons_append, splitSlash_cons_ne _ hc,
        ihs (fun hh => hs (by simp [hh]))]

lemma removeDotGo_dotfree (ss : List (List Char))
    (h : ∀ seg ∈ ss, seg ≠ ['.'] ∧ seg ≠ ['.', '.']) :
    ∀ out : List (List Char), removeDotGo out ss = out.reverse ++ ss := by
  induction ss with
  | nil => intro out; simp [removeDotGo]
  | cons seg rest ih =>
    intro out
    have hseg := h seg (by simp)
    simp only [removeDotGo, if_neg hseg.2, if_neg hseg.1]
    rw [ih (fun s hs => h s (by simp [hs])) (seg :: out)]
    simp

lemma removeDot_dotfree (ss : List (List Char))
    (h : ∀ seg ∈ ss, seg ≠ ['.'] ∧ seg ≠ ['.', '.']) :
    removeDot ss = ss := by
  rw [removeDot, removeDotGo_dotfree ss h []]
  simp

lemma wf_parts {u : UrlC} (h : wf u = true) :
    u.host ≠ [] ∧ (∀ c ∈ u.host, hostChar c = true ∧ hostOk c = true)
      ∧ u.path ≠ [] ∧ (∀ seg ∈ u.path, segOk seg = true)
      ∧ (∀ q, u.query = some q → ∀ c ∈ q, c ≠ '#') := by
  simp only [wf, Bool.and_eq_true, List.all_eq_true, Bool.not_eq_true',
    List.isEmpty_eq_false_iff_exists_mem] at h
  obtain ⟨⟨⟨⟨h1, h2⟩, h3⟩, h4⟩, h5⟩ := h
  refine ⟨?_, ?_, ?_, h4, ?_⟩
  · obtain ⟨x, hx⟩ := h1; exact fun hn => by simp [hn] at hx
  · intro c hc; have := h2 c hc; simpa [Bool.and_eq_true] using this
  · obtain ⟨x, hx⟩ := h3; exact fun hn => by simp [hn] at hx
  · intro q hq c hc
    rw [hq] at h5
    simp only [List.all_eq_true] at h5
    have := h5 c hc
    simpa using this

lemma segOk_parts {seg : List Char} (h : segOk seg = true) :
    (∀ c ∈ seg, pathChar c = true ∧ c ≠ '/') ∧ seg ≠ ['.'] ∧ seg ≠ ['.', '.'] := by
  simp only [segOk, Bool.and_eq_true, List.all_eq_true, Bool.not_eq_true'] at h
  obtain ⟨⟨h1, h2⟩, h3⟩ := h
  refine ⟨fun c hc => ?_, by simpa using h2, by simpa using h3⟩
  have := h1 c hc
  simp only [Bool.and_eq_true, Bool.not_eq_true'] at this
  exact ⟨this.1, by simpa using this.2⟩

/-- Serialization of everything after the scheme. -/
def serializeTail (u : UrlC) : List Char :=
  u.host ++ joinSegs u.path
    ++ (match u.query with | some q => '?' :: q | none => [])
    ++ (match u.fragment with | some f => '#' :: f | none => [])

lemma serializeC_eq (u : UrlC) :
    serializeC u = schemeChars u.scheme ++ serializeTail u := by
  simp [serializeC, serializeTail]

lemma parseAfterScheme_tail (sch : Scheme) (u : UrlC) (h : wf u = true) :
    parseAfterScheme sch (serializeTail u) = some ⟨sch, u.host, u.path, u.query, u.fragment⟩ := by
  obtain ⟨hhne, hhc, hpne, hseg, hq⟩ := wf_parts h
  obtain ⟨p, ps, hpath⟩ : ∃ p ps, u.path = p :: ps := by
    cases hp : u.path with
    | nil => exact absurd hp hpne
    | cons a l => exact ⟨a, l, rfl⟩
  set QF : List Char :=
    (match u.query with | some q => '?' :: q | none => [])
      ++ (match u.fragment with | some f => '#' :: f | none => []) with hQF
  have htail : serializeTail u = u.host ++ (joinSegs u.path ++ QF) := by
    simp [serializeTail, hQF]
  have hjoin : joinSegs u.path = '/' :: (p ++ joinSegs ps) := by
    rw [hpath, joinSegs_cons]
  have hjoinPath : ∀ c ∈ joinSegs u.path, pathChar c = true := by
    intro c hc
    simp only [joinSegs, List.mem_flatten, List.mem_map] at hc
    obtain ⟨l, ⟨seg, hsegmem, rfl⟩, hcl⟩ := hc
    rcases List.mem_cons.mp hcl with rfl | hcl
    · decide
    · exact ((segOk_parts (hseg seg hsegmem)).1 c hcl).1
  have hLcons : joinSegs u.path ++ QF = '/' :: ((p ++ joinSegs ps) ++ QF) := by
    rw [hjoin]; simp
  have hhostTW : (u.host ++ (joinSegs u.path ++ QF)).takeWhile hostChar = u.host := by
    rw [takeWhile_app _ (fun c hc => (hhc c hc).1), hLcons,
      takeWhile_cons_neg _ (by decide), List.append_nil]
  have hhostDW : (u.host ++ (joinSegs u.path ++ QF)).dropWhile hostChar
      = joinSegs u.path ++ QF := by
    rw [dropWhile_app _ (fun c hc => (hhc c hc).1), hLcons,
      dropWhile_cons_neg _ (by decide)]
  have hQFcase : QF = [] ∨ (∃ r, QF = '?' :: r) ∨ (∃ r, QF = '#' :: r) := by
    rcases hu : u.query with _ | q
    · rcases hf : u.fragment with _ | f
      · left; simp [hQF, hu, hf]
      · right; right; exact ⟨f, by simp [hQF, hu, hf]⟩
    · right; left
      exact ⟨q ++ (match u.fragment with | some f => '#' :: f | none => []),
        by simp [hQF, hu]⟩
  have hPW : (joinSegs u.path ++ QF).takeWhile pathChar = joinSegs u.path := by
    rw [takeWhile_app _ hjoinPath]
    rcases hQFcase with hc | ⟨r, hc⟩ | ⟨r, hc⟩ <;> rw [hc]
    · simp
    · rw [takeWhile_cons_neg _ (by decide)]; simp
    · rw [takeWhile_cons_neg _ (by decide)]; simp
  have hPD : (joinSegs u.path ++ QF).dropWhile pathChar = QF := by
    rw [dropWhile_app _ hjoinPath]
    rcases hQFcase with hc | ⟨r, hc⟩ | ⟨r, hc⟩ <;> rw [hc]
    · simp
    · rw [dropWhile_cons_neg _ (by decide)]
    · rw [dropWhile_cons_neg _ (by decide)]
  have hguard : (u.host.isEmpty || !(u.host.all hostOk)) = false := by
    simp only [Bool.or_eq_false_iff, Bool.not_eq_false', List.all_eq_true]
    constructor
    · cases hh : u.host with
      | nil => exact absurd hh hhne
      | cons a l => rfl
    · exact fun c hc => (hhc c hc).2
  have hsegs : removeDot (splitSlash (p ++ joinSegs ps)) = u.path := by
    have hp' : '/' ∉ p := by
      intro hmem
      have := (segOk_parts (hseg p (by rw [hpath]; simp))).1 '/' hmem
      exact this.2 rfl
    have hps' : ∀ seg ∈ ps, '/' ∉ seg := by
      intro seg hmem hs
      have := (segOk_parts (hseg seg (by rw [hpath]; simp [hmem]))).1 '/' hs
      exact this.2 rfl
    rw [splitSlash_join hps' p hp', ← hpath]
    exact removeDot_dotfree u.path
      (fun seg hs => ⟨(segOk_parts (hseg seg hs)).2.1, (segOk_parts (hseg seg hs)).2.2⟩)
  rw [htail]
  simp only [parseAfterScheme]
  rw [hhostTW, hhostDW]
  simp only [hguard, Bool.false_eq_true, if_false, hPW, hPD]
  rw [hjoin]
  simp only [hsegs]
  rcases hu : u.query with _ | q
  · rcases hf : u.fragment with _ | f
    · simp [hQF, hu, hf]
    · simp [hQF, hu, hf]
  · have hqc : ∀ c ∈ q, (fun c => !(c = '#')) c = true := by
      intro c hc
      simpa using hq q hu c hc
    rcases hf : u.fragment with _ | f
    · simp only [hQF, hu, hf, List.append_nil]
      rw [takeWhile_all hqc]
      try simp [dropWhile_all hqc]
    · simp only [hQF, hu, hf, List.cons_append]
      rw [takeWhile_app _ hqc, takeWhile_cons_neg _ (by decide), List.append_nil,
        dropWhile_app _ hqc, dropWhile_cons_neg _ (by decide)]
      simp

lemma parseC_app_https (T : List Char) :
    parseC (schemeChars .https ++ T) = parseAfterScheme .https T := rfl

lemma parseC_app_http (T : List Char) :
    parseC (schemeChars .http ++ T) = parseAfterScheme .http T := rfl

theorem parse_serializeC {u : UrlC} (h : wf u = true) : parseC (serializeC u) = some u := by
  obtain ⟨sc, ho, pa, qu, fr⟩ := u
  cases sc
  · simp only [serializeC_eq]
    rw [parseC_app_http]
    simpa using parseAfterScheme_tail .http ⟨.http, ho, pa, qu, fr⟩ h
  · simp only [serializeC_eq]
    rw [parseC_app_https]
    simpa using parseAfterScheme_tail .https ⟨.https, ho, pa, qu, fr⟩ h

lemma parseAfterScheme_bare (sch : Scheme) (host : List Char) (hne : host ≠ [])
    (hch : ∀ c ∈ host, hostChar c = true ∧ hostOk c = true) :
    parseAfterScheme sch host = some ⟨sch, host, [[]], none, none⟩ := by
  have h1 : host.takeWhile hostChar = host := takeWhile_all (fun c hc => (hch c hc).1)
  have h2 : host.dropWhile hostChar = [] := dropWhile_all (fun c hc => (hch c hc).1)
  have hguard : (host.isEmpty || !(host.all hostOk)) = false := by
    simp only [Bool.or_eq_false_iff, Bool.not_eq_false', List.all_eq_true]
    constructor
    · cases hh : host with
      | nil => exact absurd hh hne
      | cons a l => rfl
    · exact fun c hc => (hch c hc).2
  simp only [parseAfterScheme, h1, h2, hguard, Bool.false_eq_true, if_false]
  simp [List.takeWhile, List.dropWhile]

lemma parseC_bare (sch : Scheme) (host : List Char) (hne : host ≠ [])
    (hch : ∀ c ∈ host, hostChar c = true ∧ hostOk c = true) :
    parseC (schemeChars sch ++ host) = some ⟨sch, host, [[]], none, none⟩ := by
  cases sch
  · rw [parseC_app_http]; exact parseAfterScheme_bare _ _ hne hch
  · rw [parseC_app_https]; exact parseAfterScheme_bare _ _ hne hch

lemma splitSlash_chars :
    ∀ (cs : List Char) (seg : List Char), seg ∈ splitSlash cs → ∀ c ∈ seg, c ∈ cs := by
  intro cs
  induction cs with
  | nil =>
    intro seg hseg c hc
    simp [splitSlash] at hseg
    subst hseg
    simp at hc
  | cons a l ih =>
    intro seg hseg c hc
    by_cases ha : a = '/'
    · subst ha
      simp only [splitSlash] at hseg
      rcases List.mem_cons.mp hseg with rfl | hseg
      · simp at hc
      · exact List.mem_cons_of_mem _ (ih seg hseg c hc)
    · rw [splitSlash_cons_ne l ha] at hseg
      cases hsp : splitSlash l with
      | nil => exact absurd hsp (splitSlash_ne_nil l)
      | cons s ss =>
        rw [hsp] at hseg
        rcases List.mem_cons.mp hseg with rfl | hseg
        · rcases List.mem_cons.mp hc with rfl | hc
          · simp
          · exact List.mem_cons_of_mem _ (ih s (by rw [hsp]; simp) c hc)
        · exact List.mem_cons_of_mem _ (ih seg (by rw [hsp]; simp [hseg]) c hc)

lemma splitSlash_out_no_slash :
    ∀ (cs : List Char) (seg : List Char), seg ∈ splitSlash cs → '/' ∉ seg := by
  intro cs
  induction cs with
  | nil =>
    intro seg hseg
    simp [splitSlash] at hseg
    subst hseg
    simp
  | cons a l ih =>
    intro seg hseg
    by_cases ha : a = '/'
    · subst ha
      simp only [splitSlash] at hseg
      rcases List.mem_cons.mp hseg with rfl | hseg
      · simp
      · exact ih seg hseg
    · rw [splitSlash_cons_ne l ha] at hseg
      cases hsp : splitSlash l with
      | nil => exact absurd hsp (splitSlash_ne_nil l)
      | cons s ss =>
        rw [hsp] at hseg
        rcases List.mem_cons.mp hseg with rfl | hseg
        · intro hmem
          rcases List.mem_cons.mp hmem with h1 | h1
          · exact ha h1.symm
          · exact ih s (by rw [hsp]; simp) h1
        · exact ih seg (by rw [hsp]; simp [hseg])


lemma removeDotGo_prop (P : List Char → Prop) (hnil : P []) :
    ∀ (inp out : List (List Char)), (∀ s ∈ out, P s) →
      (∀ s ∈ inp, s ≠ ['.'] → s ≠ ['.', '.'] → P s) →
      ∀ s ∈ removeDotGo out inp, P s := by
  intro inp
  induction inp with
  | nil =>
    intro out hout _ s hs
    simp only [removeDotGo, List.mem_reverse] at hs
    exact hout s hs
  | cons seg rest ih =>
    intro out hout hinp s hs
    simp only [removeDotGo] at hs
    by_cases h2 : seg = ['.', '.']
    · rw [if_pos h2] at hs
      by_cases hr : rest = []
      · rw [if_pos hr] at hs
        simp only [List.mem_reverse, List.mem_cons] at hs
        rcases hs with rfl | hs
        · exact hnil
        · exact hout s (List.drop_subset 1 out hs)
      · rw [if_neg hr] at hs
        exact ih (out.drop 1) (fun t ht => hout t (List.drop_subset 1 out ht))
          (fun t ht => hinp t (by simp [ht])) s hs
    · rw [if_neg h2] at hs
      by_cases h1 : seg = ['.']
      · rw [if_pos h1] at hs
        by_cases hr : rest = []
        · rw [if_pos hr] at hs
          simp only [List.mem_reverse, List.mem_cons] at hs
          rcases hs with rfl | hs
          · exact hnil
          · exact hout s hs
        · rw [if_neg hr] at hs
          exact ih out hout (fun t ht => hinp t (by simp [ht])) s hs
      · rw [if_neg h1] at hs
        refine ih (seg :: out) ?_ (fun t ht => hinp t (by simp [ht])) s hs
        intro t ht
        rcases List.mem_cons.mp ht with rfl | ht
        · exact hinp t (by simp) h1 h2
        · exact hout t ht

lemma removeDotGo_ne_nil :
    ∀ (inp out : List (List Char)), inp ≠ [] → removeDotGo out inp ≠ [] := by
  intro inp
  induction inp with
  | nil => intro out h; exact absurd rfl h
  | cons seg rest ih =>
    intro out _
    simp only [removeDotGo]
    by_cases h2 : seg = ['.', '.']
    · rw [if_pos h2]
      by_cases hr : rest = []
      · rw [if_pos hr]; simp
      · rw [if_neg hr]; exact ih _ hr
    · rw [if_neg h2]
      by_cases h1 : seg = ['.']
      · rw [if_pos h1]
        by_cases hr : rest = []
        · rw [if_pos hr]; simp
        · rw [if_neg hr]; exact ih _ hr
      · rw [if_neg h1]
        by_cases hr : rest = []
        · subst hr; simp [removeDotGo]
        · exact ih _ hr

lemma wf_build (sch : Scheme) (host : List Char) (pa : List (List Char))
    (qu fr : Option (List Char))
    (h1 : host ≠ []) (h2 : ∀ c ∈ host, hostChar c = true ∧ hostOk c = true)
    (h3 : pa ≠ []) (h4 : ∀ seg ∈ pa, segOk seg = true)
    (h5 : ∀ q, qu = some q → ∀ c ∈ q, c ≠ '#') :
    wf ⟨sch, host, pa, qu, fr⟩ = true := by
  simp only [wf, Bool.and_eq_true, List.all_eq_true]
  refine ⟨⟨⟨⟨?_, fun c hc => ?_⟩, ?_⟩, h4⟩, ?_⟩
  · cases hh : host with
    | nil => exact absurd hh h1
    | cons a l => rfl
  · exact h2 c hc
  · cases hh : pa with
    | nil => exact absurd hh h3
    | cons a l => rfl
  · cases hq : qu with
    | none => rfl
    | some q =>
      simp only [List.all_eq_true]
      intro c hc
      simpa using h5 q hq c hc

lemma wf_parseAfterScheme {sch : Scheme} {rest : List Char} {u : UrlC}
    (h : parseAfterScheme sch rest = some u) : wf u = true := by
  simp only [parseAfterScheme] at h
  by_cases hg : ((List.takeWhile hostChar rest).isEmpty
      || !(List.takeWhile hostChar rest).all hostOk) = true
  · rw [if_pos hg] at h
    exact absurd h (by simp)
  · rw [if_neg hg] at h
    have hgf := eq_false_of_ne_true hg
    simp only [Bool.or_eq_false_iff, Bool.not_eq_false', List.all_eq_true] at hgf
    have hhost1 : List.takeWhile hostChar rest ≠ [] := by
      intro hn
      rw [hn] at hgf
      simp at hgf
    have hhost2 : ∀ c ∈ List.takeWhile hostChar rest, hostChar c = true ∧ hostOk c = true :=
      fun c hc => ⟨List.mem_takeWhile_imp hc, hgf.2 c hc⟩
    have hsegs : (match List.takeWhile pathChar (List.dropWhile hostChar rest) with
        | [] => [[]]
        | _ :: cs => removeDot (splitSlash cs)) ≠ []
        ∧ ∀ seg ∈ (match List.takeWhile pathChar (List.dropWhile hostChar rest) with
        | [] => [[]]
        | _ :: cs => removeDot (splitSlash cs)), segOk seg = true := by
      cases hpc : List.takeWhile pathChar (List.dropWhile hostChar rest) with
      | nil =>
        constructor
        · simp
        · intro seg hseg
          simp only [List.mem_singleton] at hseg
          subst hseg
          decide
      | cons a cs =>
        constructor
        · exact removeDotGo_ne_nil _ _ (splitSlash_ne_nil cs)
        · refine removeDotGo_prop (fun seg => segOk seg = true) (by decide) _ _
            (by simp) ?_
          intro seg hseg hd1 hd2
          simp only [segOk, Bool.and_eq_true, List.all_eq_true, Bool.not_eq_true']
          refine ⟨⟨fun c hc => ?_, ?_⟩, ?_⟩
          · have hcs : c ∈ cs := splitSlash_chars cs seg hseg c hc
            have hmem : c ∈ List.takeWhile pathChar (List.dropWhile hostChar rest) := by
              rw [hpc]
              exact List.mem_cons_of_mem _ hcs
            have hpcc := List.mem_takeWhile_imp hmem
            refine ⟨hpcc, ?_⟩
            have hns := splitSlash_out_no_slash cs seg hseg
            by_cases hcslash : c = '/'
            · exact absurd (hcslash ▸ hc) hns
            · simp [hcslash]
          · simp [hd1]
          · simp [hd2]
    split at h
    · injection h with h
      subst h
      exact wf_build _ _ _ _ _ hhost1 hhost2 hsegs.1 hsegs.2
        (by
          intro q hq c hc
          injection hq with hq
          subst hq
          have := List.mem_takeWhile_imp hc
          simpa using this)
    · injection h with h
      subst h
      exact wf_build _ _ _ _ _ hhost1 hhost2 hsegs.1 hsegs.2 (by simp)
    · injection h with h
      subst h
      exact wf_build _ _ _ _ _ hhost1 hhost2 hsegs.1 hsegs.2 (by simp)

lemma wf_parseC {s : List Char} {u : UrlC} (h : parseC s = some u) : wf u = true := by
  rw [parseC.eq_def] at h
  split at h
  · exact wf_parseAfterScheme h
  · exact wf_parseAfterScheme h
  · exact absurd h (by simp)

theorem parse_stripSlash {u : UrlC} (hwf : wf u = true) (hf : u.fragment = none) :
    parseC (stripSlash (serializeC u)) = some (stripUrlC u) := by
  obtain ⟨sc, ho, pa, qu, fr⟩ := u
  obtain ⟨hhne, hhc, hpne, hseg, hq⟩ := wf_parts hwf
  simp only at hhne hhc hpne hseg hq hf ⊢
  subst hf
  rcases hqu : qu with _ | q
  · subst hqu
    obtain ⟨ps, s, hpa⟩ : ∃ ps s, pa = ps ++ [s] :=
      ⟨pa.dropLast, pa.getLast hpne, (List.dropLast_append_getLast hpne).symm⟩
    subst hpa
    have hdec : serializeC ⟨sc, ho, ps ++ [s], none, none⟩
        = ((schemeChars sc ++ ho) ++ joinSegs ps) ++ ('/' :: s) := by
      simp [serializeC, joinSegs_append, joinSegs_cons, joinSegs_nil]
    rcases hs : s with _ | ⟨c, s'⟩
    · subst hs
      by_cases hps : ps = []
      · subst hps
        have hser : serializeC ⟨sc, ho, [] ++ [[]], none, none⟩
            = (schemeChars sc ++ ho) ++ ['/'] := by
          rw [hdec]; simp [joinSegs_nil]
        have hlast : (serializeC ⟨sc, ho, [] ++ [[]], none, none⟩).getLast? = some '/' := by
          rw [hser]; exact List.getLast?_concat _
        rw [stripSlash, if_pos hlast, hser, List.dropLast_concat,
          parseC_bare sc ho hhne hhc]
        have hstrip : stripUrlC ⟨sc, ho, [] ++ [[]], none, none⟩
            = ⟨sc, ho, [] ++ [[]], none, none⟩ := by
          simp [stripUrlC]
        rw [hstrip]
        simp
      · have hlast : (serializeC ⟨sc, ho, ps ++ [[]], none, none⟩).getLast? = some '/' := by
          rw [hdec]; exact List.getLast?_concat _
        rw [stripSlash, if_pos hlast, hdec, List.dropLast_concat]
        have hser2 : (schemeChars sc ++ ho) ++ joinSegs ps
            = serializeC ⟨sc, ho, ps, none, none⟩ := by
          simp [serializeC]
        rw [hser2, @parse_serializeC ⟨sc, ho, ps, none, none⟩
          (wf_build sc ho ps none none hhne hhc hps
            (fun seg hsg => hseg seg (by simp [hsg]))
            (by simp))]
        have hstrip : stripUrlC ⟨sc, ho, ps ++ [[]], none, none⟩
            = ⟨sc, ho, ps, none, none⟩ := by
          have h1 : (ps ++ [[]] : List (List Char)).getLast? = some [] :=
            List.getLast?_concat _
          have h2 : (ps ++ [[]] : List (List Char)) ≠ [[]] := by
            intro hcon
            have := congrArg List.length hcon
            simp at this
            exact hps this
          have h3 : (ps ++ [[]] : List (List Char)).dropLast = ps := List.dropLast_concat
          simp only [stripUrlC]
          rw [h1]
          simp [h2, h3]
        rw [hstrip]
    · subst hs
      have hsmem : (c :: s') ∈ ps ++ [c :: s'] := by simp
      have hsok := (segOk_parts (hseg _ hsmem)).1
      have hlastchar : ∀ x, (c :: s').getLast? = some x → x ≠ '/' := by
        intro x hx
        have hmem : x ∈ c :: s' := by
          have := List.getLast?_eq_getLast (c :: s') (by simp)
          rw [this] at hx
          injection hx with hx
          subst hx
          exact List.getLast_mem _
        exact (hsok x hmem).2
      have hlast : (serializeC ⟨sc, ho, ps ++ [c :: s'], none, none⟩).getLast? ≠ some '/' := by
        rw [hdec, List.getLast?_append_of_ne_nil _ (by simp), List.getLast?_cons_cons]
        intro hcon
        exact hlastchar '/' hcon rfl
      rw [stripSlash, if_neg hlast, parse_serializeC hwf]
      have hstrip : stripUrlC ⟨sc, ho, ps ++ [c :: s'], none, none⟩
          = ⟨sc, ho, ps ++ [c :: s'], none, none⟩ := by
        simp only [stripUrlC, List.getLast?_concat]
        rw [if_neg (by simp)]
      rw [hstrip]
  · subst hqu
    have hdec : serializeC ⟨sc, ho, pa, some q, none⟩
        = ((schemeChars sc ++ ho ++ joinSegs pa)) ++ ('?' :: q) := by
      simp [serializeC]
    rcases hql : q.getLast? with _ | c
    · have hqnil : q = [] := List.getLast?_eq_none_iff.mp hql
      subst hqnil
      have hlast : (serializeC ⟨sc, ho, pa, some [], none⟩).getLast? = some '?' := by
        rw [hdec]; exact List.getLast?_concat _
      rw [stripSlash, if_neg (by rw [hlast]; decide), parse_serializeC hwf]
      have hstrip : stripUrlC ⟨sc, ho, pa, some [], none⟩
          = ⟨sc, ho, pa, some [], none⟩ := by
        simp [stripUrlC]
      rw [hstrip]
    · have hqne : q ≠ [] := by
        intro hcon; rw [hcon] at hql; simp at hql
      obtain ⟨d, q', hqd⟩ : ∃ d q', q = d :: q' := by
        cases q with
        | nil => exact absurd rfl hqne
        | cons a l => exact ⟨a, l, rfl⟩
      have hlast : (serializeC ⟨sc, ho, pa, some q, none⟩).getLast? = some c := by
        rw [hdec, List.getLast?_append_of_ne_nil _ (by simp)]
        rw [hqd, List.getLast?_cons_cons, ← hqd]
        exact hql
      by_cases hc : c = '/'
      · subst hc
        rw [stripSlash, if_pos hlast, hdec,
          List.dropLast_append_of_ne_nil _ (by simp)]
        have hdlq : ('?' :: q).dropLast = '?' :: q.dropLast := by
          rw [hqd]; exact List.dropLast_cons₂
        rw [hdlq]
        have hser2 : (schemeChars sc ++ ho ++ joinSegs pa) ++ ('?' :: q.dropLast)
            = serializeC ⟨sc, ho, pa, some q.dropLast, none⟩ := by
          simp [serializeC]
        rw [hser2, @parse_serializeC ⟨sc, ho, pa, some q.dropLast, none⟩
          (wf_build sc ho pa (some q.dropLast) none hhne hhc hpne hseg
            (by
              intro q0 hq0 c0 hc0
              injection hq0 with hq0
              subst hq0
              exact hq q rfl c0 (List.dropLast_subset q hc0)))]
        have hstrip : stripUrlC ⟨sc, ho, pa, some q, none⟩
            = ⟨sc, ho, pa, some q.dropLast, none⟩ := by
          simp only [stripUrlC]
          rw [if_pos hql]
        rw [hstrip]
      · rw [stripSlash, if_neg (by rw [hlast]; simp [hc]), parse_serializeC hwf]
        have hstrip : stripUrlC ⟨sc, ho, pa, some q, none⟩
            = ⟨sc, ho, pa, some q, none⟩ := by
          simp only [stripUrlC]
          rw [if_neg (by rw [hql]; simp [hc])]
        rw [hstrip]

lemma wf_normC {u : UrlC} (h : wf u = true) : wf (normC u) = true := by
  cases u
  simpa [wf, normC] using h

lemma normC_id {w : UrlC} (h1 : w.scheme = .https) (h2 : w.fragment = none) :
    normC w = w := by
  cases w
  simp_all [normC]

lemma stripUrlC_scheme (u : UrlC) : (stripUrlC u).scheme = u.scheme := by
  rcases hq : u.query with _ | q <;> simp only [stripUrlC, hq] <;> split_ifs <;> rfl

lemma stripUrlC_fragment (u : UrlC) : (stripUrlC u).fragment = u.fragment := by
  rcases hq : u.query with _ | q <;> simp only [stripUrlC, hq] <;> split_ifs <;> rfl

lemma stripUrlC_id_of_not_slash {u : UrlC} (hwf : wf u = true) (hf : u.fragment = none)
    (h : (serializeC u).getLast? ≠ some '/') : stripUrlC u = u := by
  obtain ⟨sc, ho, pa, qu, fr⟩ := u
  obtain ⟨hhne, hhc, hpne, hseg, hq⟩ := wf_parts hwf
  simp only at hhne hhc hpne hseg hq hf h ⊢
  subst hf
  rcases hqu : qu with _ | q
  · subst hqu
    obtain ⟨ps, s, hpa⟩ : ∃ ps s, pa = ps ++ [s] :=
      ⟨pa.dropLast, pa.getLast hpne, (List.dropLast_append_getLast hpne).symm⟩
    subst hpa
    have hdec : serializeC ⟨sc, ho, ps ++ [s], none, none⟩
        = ((schemeChars sc ++ ho) ++ joinSegs ps) ++ ('/' :: s) := by
      simp [serializeC, joinSegs_append, joinSegs_cons, joinSegs_nil]
    have hsne : s ≠ [] := by
      intro hcon
      subst hcon
      rw [hdec, List.getLast?_append_of_ne_nil _ (by simp)] at h
      simp at h
    simp only [stripUrlC]
    rw [List.getLast?_concat]
    rw [if_neg (by simpa using hsne)]
  · subst hqu
    have hdec : serializeC ⟨sc, ho, pa, some q, none⟩
        = ((schemeChars sc ++ ho ++ joinSegs pa)) ++ ('?' :: q) := by
      simp [serializeC]
    have hqlast : q.getLast? ≠ some '/' := by
      intro hcon
      have hqne : q ≠ [] := by
        intro hnil; rw [hnil] at hcon; simp at hcon
      obtain ⟨d, q', rfl⟩ : ∃ d q', q = d :: q' := by
        cases q with
        | nil => exact absurd rfl hqne
        | cons a l => exact ⟨a, l, rfl⟩
      rw [hdec, List.getLast?_append_of_ne_nil _ (by simp),
        List.getLast?_cons_cons] at h
      exact h hcon
    simp only [stripUrlC]
    rw [if_neg hqlast]

lemma serialize_stripUrl {u : UrlC} (hwf : wf u = true) (hf : u.fragment = none)
    (h : (serializeC u).getLast? = some '/') :
    serializeC (stripUrlC u) = (serializeC u).dropLast
      ∨ (stripUrlC u = u ∧ u.path = [[]] ∧ u.query = none) := by
  obtain ⟨sc, ho, pa, qu, fr⟩ := u
  obtain ⟨hhne, hhc, hpne, hseg, hq⟩ := wf_parts hwf
  simp only at hhne hhc hpne hseg hq hf h ⊢
  subst hf
  rcases hqu : qu with _ | q
  · subst hqu
    obtain ⟨ps, s, hpa⟩ : ∃ ps s, pa = ps ++ [s] :=
      ⟨pa.dropLast, pa.getLast hpne, (List.dropLast_append_getLast hpne).symm⟩
    subst hpa
    have hdec : serializeC ⟨sc, ho, ps ++ [s], none, none⟩
        = ((schemeChars sc ++ ho) ++ joinSegs ps) ++ ('/' :: s) := by
      simp [serializeC, joinSegs_append, joinSegs_cons, joinSegs_nil]
    have hsnil : s = [] := by
      rcases hscase : s with _ | ⟨c, s'⟩
      · rfl
      · exfalso
        rw [hdec, List.getLast?_append_of_ne_nil _ (by simp), hscase,
          List.getLast?_cons_cons] at h
        have hmem : '/' ∈ (c :: s' : List Char) := by
          have hne : (c :: s' : List Char) ≠ [] := by simp
          have := List.getLast?_eq_getLast (c :: s') hne
          rw [this] at h
          injection h with h
          rw [← h]
          exact List.getLast_mem hne
        have hsok := (segOk_parts (hseg (c :: s') (by rw [← hscase]; simp))).1
        exact (hsok '/' hmem).2 rfl
    subst hsnil
    by_cases hps : ps = []
    · subst hps
      right
      refine ⟨?_, by simp, rfl⟩
      simp only [stripUrlC]
      rw [List.getLast?_concat]
      simp
    · left
      have hstrip : stripUrlC ⟨sc, ho, ps ++ [[]], none, none⟩
          = ⟨sc, ho, ps, none, none⟩ := by
        have h2 : (ps ++ [[]] : List (List Char)) ≠ [[]] := by
          intro hcon
          have := congrArg List.length hcon
          simp at this
          exact hps this
        simp only [stripUrlC]
        rw [List.getLast?_concat]
        simp [h2]
      rw [hstrip, hdec, List.dropLast_concat]
      simp [serializeC]
  · subst hqu
    left
    have hdec : serializeC ⟨sc, ho, pa, some q, none⟩
        = ((schemeChars sc ++ ho ++ joinSegs pa)) ++ ('?' :: q) := by
      simp [serializeC]
    rw [hdec, List.getLast?_append_of_ne_nil _ (by simp)] at h
    have hqne : q ≠ [] := by
      intro hnil
      rw [hnil] at h
      simp at h
    obtain ⟨d, q', rfl⟩ : ∃ d q', q = d :: q' := by
      cases q with
      | nil => exact absurd rfl hqne
      | cons a l => exact ⟨a, l, rfl⟩
    rw [List.getLast?_cons_cons] at h
    have hstrip : stripUrlC ⟨sc, ho, pa, some (d :: q'), none⟩
        = ⟨sc, ho, pa, some ((d :: q').dropLast), none⟩ := by
      simp only [stripUrlC]
      rw [if_pos h]
    rw [hstrip, hdec, List.dropLast_append_of_ne_nil _ (by simp),
      List.dropLast_cons₂]
    simp [serializeC]

lemma normalizeUrl_data {s n : String} (h : normalizeUrl s = some n) :
    ∃ p, parseC s.data = some p ∧ n.data = stripSlash (serializeC (normC p)) := by
  simp only [normalizeUrl, Option.map_eq_some'] at h
  obtain ⟨p, hp, hn⟩ := h
  exact ⟨p, hp, by rw [← hn]⟩

/-- Canonical outputs of `normalizeUrl` parse again: re-normalizing a link
the crawler produced never throws. -/
theorem normalizeUrl_renorm_isSome {s n : String} (h : normalizeUrl s = some n) :
    (normalizeUrl n).isSome = true := by
  obtain ⟨p, hp, hnd⟩ := normalizeUrl_data h
  have hwf := wf_normC (wf_parseC hp)
  have hparse := parse_stripSlash hwf rfl
  rw [normalizeUrl, hnd, hparse]
  rfl

/-- Amended idempotence law for `normalizeUrl`: a canonical output that
does not end in `/` is a fixed point of `normalizeUrl`. -/
theorem normalizeUrl_fixpoint {s n : String} (h : normalizeUrl s = some n)
    (hns : n.data.getLast? ≠ some '/') : normalizeUrl n = some n := by
  obtain ⟨p, hp, hnd⟩ := normalizeUrl_data h
  have hwf : wf (normC p) = true := wf_normC (wf_parseC hp)
  have hparse := parse_stripSlash hwf rfl
  rw [normalizeUrl, hnd, hparse]
  have hnc : normC (stripUrlC (normC p)) = stripUrlC (normC p) :=
    normC_id (by rw [stripUrlC_scheme]; rfl) (by rw [stripUrlC_fragment]; rfl)
  simp only [Option.map_some', hnc]
  have hcore : stripSlash (serializeC (stripUrlC (normC p))) = n.data := by
    by_cases hE : (serializeC (normC p)).getLast? = some '/'
    · rcases serialize_stripUrl hwf rfl hE with hser | ⟨hid, _hroot, _hqn⟩
      · rw [hser]
        have hdl : (serializeC (normC p)).dropLast = n.data := by
          rw [hnd, stripSlash, if_pos hE]
        rw [hdl, stripSlash, if_neg hns]
      · rw [hid, ← hnd]
    · have hid := stripUrlC_id_of_not_slash hwf rfl hE
      rw [hid, ← hnd]
  rw [hcore]

lemma mapOption_none_of_mem {α β : Type} {f : α → Option β} {l : List α} {x : α}
    (hx : x ∈ l) (hf : f x = none) : mapOption f l = none := by
  induction l with
  | nil => simp at hx
  | cons a t ih =>
    rcases List.mem_cons.mp hx with rfl | hx
    · simp [mapOption, hf]
    · simp only [mapOption, ih hx]
      cases f a <;> rfl

lemma mapOption_mem {α β : Type} {f : α → Option β} {l : List α} {ys : List β}
    (h : mapOption f l = some ys) : ∀ y ∈ ys, ∃ x ∈ l, f x = some y := by
  induction l generalizing ys with
  | nil =>
    simp only [mapOption, Option.some.injEq] at h
    subst h
    simp
  | cons a t ih =>
    simp only [mapOption] at h
    cases hfa : f a with
    | none => rw [hfa] at h; exact absurd h (by simp)
    | some b =>
      rw [hfa] at h
      cases hmt : mapOption f t with
      | none => rw [hmt] at h; exact absurd h (by simp)
      | some bs =>
        rw [hmt] at h
        injection h with h
        subst h
        intro y hy
        rcases List.mem_cons.mp hy with rfl | hy
        · exact ⟨a, by simp, hfa⟩
        · obtain ⟨x, hx, hfx⟩ := ih hmt y hy
          exact ⟨x, by simp [hx], hfx⟩

lemma dedupGo_subset : ∀ (l seen : List String) (y : String), y ∈ dedupGo seen l → y ∈ l := by
  intro l
  induction l with
  | nil => intro seen y hy; simp [dedupGo] at hy
  | cons a t ih =>
    intro seen y hy
    simp only [dedupGo] at hy
    by_cases ha : a ∈ seen
    · rw [if_pos ha] at hy
      exact List.mem_cons_of_mem _ (ih seen y hy)
    · rw [if_neg ha] at hy
      rcases List.mem_cons.mp hy with rfl | hy
      · simp
      · exact List.mem_cons_of_mem _ (ih (a :: seen) y hy)

lemma dedupFirst_subset {l : List String} {y : String} (hy : y ∈ dedupFirst l) : y ∈ l :=
  dedupGo_subset l [] y hy

lemma dedupGo_nodup : ∀ (l seen : List String),
    (dedupGo seen l).Nodup ∧ ∀ y ∈ dedupGo seen l, y ∉ seen := by
  intro l
  induction l with
  | nil => intro seen; simp [dedupGo]
  | cons a t ih =>
    intro seen
    simp only [dedupGo]
    by_cases ha : a ∈ seen
    · rw [if_pos ha]
      exact ih seen
    · rw [if_neg ha]
      obtain ⟨hnd, hns⟩ := ih (a :: seen)
      refine ⟨List.nodup_cons.mpr ⟨fun hmem => ?_, hnd⟩, ?_⟩
      · exact hns a hmem (by simp)
      · intro y hy
        rcases List.mem_cons.mp hy with rfl | hy
        · exact ha
        · intro hys
          exact hns y hy (by simp [hys])

lemma dedupFirst_nodup (l : List String) : (dedupFirst l).Nodup :=
  (dedupGo_nodup l []).1

lemma extractLinks_mem {hrefs : List String} {base : String} {out : List String}
    (h : extractLinks hrefs base = some out) :
    ∀ l ∈ out, ∃ href, resolveAndNormalize base href = some l := by
  simp only [extractLinks, Option.map_eq_some'] at h
  obtain ⟨ys, hys, hout⟩ := h
  intro l hl
  rw [← hout] at hl
  obtain ⟨x, _hx, hfx⟩ := mapOption_mem hys l (dedupFirst_subset hl)
  exact ⟨x, hfx⟩

lemma resolveAndNormalize_canonical {base href l : String}
    (h : resolveAndNormalize base href = some l) : ∃ s, normalizeUrl s = some l := by
  simp only [resolveAndNormalize] at h
  cases hb : parseC base.data with
  | none => simp only [hb] at h; exact absurd h (by simp)
  | some b =>
    simp only [hb] at h
    cases hr : resolveC href.data b with
    | none => simp only [hr] at h; exact absurd h (by simp)
    | some u =>
      simp only [hr] at h
      exact ⟨⟨serializeC u⟩, h⟩

lemma find?_eq_head?_filter {α : Type} (p : α → Bool) (l : List α) :
    l.find? p = (l.filter p).head? := by
  induction l with
  | nil => rfl
  | cons a t ih =>
    by_cases ha : p a
    · simp [List.find?_cons, List.filter_cons, ha]
    · simp only [List.find?_cons, List.filter_cons]
      rw [Bool.of_not_eq_true ha]
      simp only [Bool.false_eq_true, if_false]
      exact ih

lemma filter_eraseP_disj {α : Type} {p q : α → Bool} (l : List α)
    (h : ∀ x, p x = true → q x = false) : (l.eraseP p).filter q = l.filter q := by
  induction l with
  | nil => rfl
  | cons a t ih =>
    by_cases ha : p a = true
    · simp only [List.eraseP_cons, ha, cond_true, List.filter_cons, h a ha]
      simp
    · simp only [List.eraseP_cons, Bool.of_not_eq_true ha, cond_false,
        List.filter_cons]
      cases hq : q a <;> simp [ih, hq]

lemma filter_eraseP_self {α : Type} (p : α → Bool) (l : List α) :
    (l.eraseP p).filter p = (l.filter p).tail := by
  induction l with
  | nil => rfl
  | cons a t ih =>
    by_cases ha : p a = true
    · simp only [List.eraseP_cons, ha, cond_true, List.filter_cons, if_pos ha]
      simp
    · simp only [List.eraseP_cons, Bool.of_not_eq_true ha, cond_false,
        List.filter_cons]
      simpa using ih

lemma sameEdgeKey_iff {e e' : LinkEdge} : sameEdgeKey e e' = true ↔ e = e' := by
  cases e with
  | mk d f t =>
    cases e' with
    | mk d' f' t' =>
      simp [sameEdgeKey, LinkEdge.mk.injEq, and_assoc]

lemma insertEdges_cons (links : List LinkEdge) (e : LinkEdge) (new : List LinkEdge) :
    insertEdges links (e :: new)
      = insertEdges (if links.any (sameEdgeKey e) then links else links ++ [e]) new := rfl

lemma insertEdges_mem {links new : List LinkEdge} {e : LinkEdge}
    (h : e ∈ insertEdges links new) : e ∈ links ∨ e ∈ new := by
  induction new generalizing links with
  | nil => exact Or.inl h
  | cons a t ih =>
    rw [insertEdges_cons] at h
    rcases ih h with hm | hm
    · by_cases ha : links.any (sameEdgeKey a)
      · rw [if_pos ha] at hm
        exact Or.inl hm
      · rw [if_neg ha] at hm
        rcases List.mem_append.mp hm with hm | hm
        · exact Or.inl hm
        · simp only [List.mem_singleton] at hm
          subst hm
          exact Or.inr (by simp)
    · exact Or.inr (by simp [hm])

lemma insertEdges_filter_stable {links new : List LinkEdge} {q : LinkEdge → Bool}
    (h : ∀ e ∈ new, q e = false) :
    (insertEdges links new).filter q = links.filter q := by
  induction new generalizing links with
  | nil => rfl
  | cons a t ih =>
    rw [insertEdges_cons]
    rw [ih (fun e he => h e (by simp [he]))]
    by_cases ha : links.any (sameEdgeKey a)
    · rw [if_pos ha]
    · rw [if_neg ha, List.filter_append]
      simp [h a (by simp)]

lemma insertEdges_fresh {links new : List LinkEdge}
    (hnd : new.Nodup) (hfresh : ∀ e ∈ new, e ∉ links) :
    insertEdges links new = links ++ new := by
  induction new generalizing links with
  | nil => simp [insertEdges]
  | cons a t ih =>
    rw [insertEdges_cons]
    have hna : links.any (sameEdgeKey a) = false := by
      rw [List.any_eq_false]
      intro e he hkey
      rw [sameEdgeKey_iff] at hkey
      subst hkey
      exact hfresh a (by simp) he
    rw [if_neg (by simp [hna])]
    rw [ih (List.Nodup.of_cons hnd)]
    · simp
    · intro e he hmem
      rcases List.mem_append.mp hmem with hm | hm
      · exact hfresh e (by simp [he]) hm
      · simp only [List.mem_singleton] at hm
        subst hm
        exact (List.nodup_cons.mp hnd).1 he

lemma findPage_none_iff {pages : List PageRecord} {d u : String} :
    findPage pages d u = none ↔ pagesFor pages d u = [] := by
  rw [findPage, pagesFor, List.find?_eq_none, List.filter_eq_nil_iff]

lemma findPage_of_pagesFor {pages : List PageRecord} {d u : String} {r : PageRecord}
    (h : pagesFor pages d u = [r]) : findPage pages d u = some r := by
  rw [findPage, find?_eq_head?_filter]
  rw [pagesFor] at h
  rw [h]
  rfl

lemma pageMatches_parts {d u : String} {r : PageRecord}
    (h : pageMatches d u r = true) : r.dataset = d ∧ r.url = u := by
  simp only [pageMatches, Bool.and_eq_true, decide_eq_true_eq] at h
  exact h

lemma pageMatches_self {d u : String} {r : PageRecord}
    (h1 : r.dataset = d) (h2 : r.url = u) : pageMatches d u r = true := by
  simp [pageMatches, h1, h2]

lemma pagesFor_insert_match {pages : List PageRecord} {d u : String} {r : PageRecord}
    (hm : pageMatches d u r = true) (hnone : findPage pages d u = none) :
    pagesFor (insertPageOnce pages r) d u = [r] := by
  obtain ⟨h1, h2⟩ := pageMatches_parts hm
  rw [insertPageOnce, h1, h2, hnone]
  simp only [Option.isSome_none, Bool.false_eq_true, if_false]
  rw [pagesFor, List.filter_append, ← pagesFor, findPage_none_iff.mp hnone]
  simp [hm]

lemma pagesFor_insert_other {pages : List PageRecord} {d u : String} {r : PageRecord}
    (hm : pageMatches d u r = false) :
    pagesFor (insertPageOnce pages r) d u = pagesFor pages d u := by
  rw [insertPageOnce]
  by_cases hf : (findPage pages r.dataset r.url).isSome
  · rw [if_pos hf]
  · rw [if_neg hf, pagesFor, List.filter_append, ← pagesFor]
    simp [hm]

lemma pagesFor_deleteOne_self {pages : List PageRecord} {d u : String} {r : PageRecord}
    (h : pagesFor pages d u = [r]) :
    pagesFor (deleteOnePage pages d u) d u = [] := by
  rw [deleteOnePage, pagesFor, filter_eraseP_self, ← pagesFor, h]
  rfl

lemma pagesFor_deleteOne_other {pages : List PageRecord} {d u d' u' : String}
    (h : ¬(d' = d ∧ u' = u)) :
    pagesFor (deleteOnePage pages d u) d' u' = pagesFor pages d' u' := by
  rw [deleteOnePage, pagesFor, pagesFor]
  refine filter_eraseP_disj pages ?_
  intro x hx
  obtain ⟨h1, h2⟩ := pageMatches_parts hx
  subst h1
  subst h2
  simp only [pageMatches, Bool.and_eq_false_iff, decide_eq_false_iff_not]
  by_cases hd : x.dataset = d'
  · right
    intro hu
    exact h ⟨hd.symm, hu.symm⟩
  · left
    exact hd

lemma edgesFrom_deleteEdgesFrom_self (links : List LinkEdge) (d u : String) :
    edgesFrom (deleteEdgesFrom links d u) d u = [] := by
  rw [edgesFrom, deleteEdgesFrom, List.filter_filter, List.filter_eq_nil_iff]
  intro e _
  cases he : edgeFromMatches d u e <;> simp [he]

lemma edgesFrom_deleteEdgesFrom_other {links : List LinkEdge} {d u d' u' : String}
    (h : ¬(d' = d ∧ u' = u)) :
    edgesFrom (deleteEdgesFrom links d u) d' u' = edgesFrom links d' u' := by
  rw [edgesFrom, deleteEdgesFrom, List.filter_filter, edgesFrom]
  congr 1
  funext e
  by_cases he : edgeFromMatches d' u' e = true
  · simp only [he, Bool.and_true]
    simp only [edgeFromMatches, Bool.and_eq_true, decide_eq_true_eq] at he
    have : edgeFromMatches d u e = false := by
      simp only [edgeFromMatches, Bool.and_eq_false_iff, decide_eq_false_iff_not]
      by_cases hd : e.dataset = d
      · right
        intro hu
        exact h ⟨by rw [← he.1, hd], by rw [← he.2, hu]⟩
      · left; exact hd
    simp [this]
  · simp [Bool.of_not_eq_true he]

/-- Record that one pass of the fetch-and-record pipeline persists for
`norm` (the "latest attempt" for that URL): the failure record on a
rejected fetch or an extraction throw, else the page with its in-boundary
links. -/
def fetchRecord (env : Web) (d siteRoot norm : String) (t : Nat) : PageRecord :=
  match env.fetch norm with
  | .err status? msg => ⟨d, norm, status?.getD 0, none, [], t, some msg⟩
  | .ok status body =>
    match extractLinks (env.anchors body) norm with
    | none => ⟨d, norm, 0, none, [], t, some "Invalid URL"⟩
    | some outLinks =>
      ⟨d, norm, status, some body, outLinks.filter (fun l => inBoundary l siteRoot), t, none⟩

/-- Edges one pass of the pipeline writes for `norm`: its in-boundary
out-links minus the self link. -/
def fetchEdges (env : Web) (d siteRoot norm : String) : List LinkEdge :=
  ((fetchRecord env d siteRoot norm 0).outLinks.filter (fun l => !(l = norm))).map
    (fun l => LinkEdge.mk d norm l)

/-- Frontier entries one pass of the pipeline enqueues for `norm`. -/
def fetchEnqueue (env : Web) (d siteRoot norm : String) : List String :=
  (fetchRecord env d siteRoot norm 0).outLinks.filter (fun l => !(l = norm))

lemma fetchRecord_outLinks_t (env : Web) (d siteRoot norm : String) (t t' : Nat) :
    (fetchRecord env d siteRoot norm t).outLinks
      = (fetchRecord env d siteRoot norm t').outLinks := by
  cases hf : env.fetch norm with
  | err s m => simp [fetchRecord, hf]
  | ok stat body =>
    cases he : extractLinks (env.anchors body) norm <;> simp [fetchRecord, hf, he]

lemma processFetch_eq (env : Web) (d siteRoot : String) (st : CrawlState) (norm : String) :
    processFetch env d siteRoot st norm =
      { st with
        pages := insertPageOnce st.pages (fetchRecord env d siteRoot norm st.now),
        links := insertEdges st.links (fetchEdges env d siteRoot norm),
        queue := st.queue ++ fetchEnqueue env d siteRoot norm,
        fetchedTrace := st.fetchedTrace ++ [norm],
        now := st.now + 1 } := by
  cases hf : env.fetch norm with
  | err s m =>
    simp [processFetch, fetchRecord, fetchEdges, fetchEnqueue, hf, insertEdges]
  | ok stat body =>
    cases he : extractLinks (env.anchors body) norm with
    | none =>
      simp [processFetch, fetchRecord, fetchEdges, fetchEnqueue, hf, he, insertEdges]
    | some outLinks =>
      simp [processFetch, fetchRecord, fetchEdges, fetchEnqueue, hf, he]

lemma fetchRecord_dataset (env : Web) (d siteRoot norm : String) (t : Nat) :
    (fetchRecord env d siteRoot norm t).dataset = d := by
  cases hf : env.fetch norm with
  | err s m => simp [fetchRecord, hf]
  | ok stat body =>
    cases he : extractLinks (env.anchors body) norm <;> simp [fetchRecord, hf, he]

lemma fetchRecord_url (env : Web) (d siteRoot norm : String) (t : Nat) :
    (fetchRecord env d siteRoot norm t).url = norm := by
  cases hf : env.fetch norm with
  | err s m => simp [fetchRecord, hf]
  | ok stat body =>
    cases he : extractLinks (env.anchors body) norm <;> simp [fetchRecord, hf, he]

lemma fetchRecord_outLinks_bound (env : Web) (d siteRoot norm : String) (t : Nat) :
    ∀ l ∈ (fetchRecord env d siteRoot norm t).outLinks,
      inBoundary l siteRoot = true ∧ ∃ s, normalizeUrl s = some l := by
  cases hf : env.fetch norm with
  | err s m => simp [fetchRecord, hf]
  | ok stat body =>
    cases he : extractLinks (env.anchors body) norm with
    | none => simp [fetchRecord, hf, he]
    | some outLinks =>
      simp only [fetchRecord, hf, he]
      intro l hl
      simp only [List.mem_filter] at hl
      obtain ⟨href, hres⟩ := extractLinks_mem he l hl.1
      exact ⟨hl.2, resolveAndNormalize_canonical hres⟩

lemma fetchRecord_outLinks_nodup (env : Web) (d siteRoot norm : String) (t : Nat) :
    (fetchRecord env d siteRoot norm t).outLinks.Nodup := by
  cases hf : env.fetch norm with
  | err s m => simp [fetchRecord, hf]
  | ok stat body =>
    cases he : extractLinks (env.anchors body) norm with
    | none => simp [fetchRecord, hf, he]
    | some outLinks =>
      simp only [fetchRecord, hf, he]
      refine List.Nodup.filter _ ?_
      simp only [extractLinks, Option.map_eq_some'] at he
      obtain ⟨ys, _, hout⟩ := he
      rw [← hout]
      exact dedupFirst_nodup ys

lemma fetchRecord_failure (env : Web) (d siteRoot norm : String) (t : Nat)
    (h : (fetchRecord env d siteRoot norm t).error.isSome) :
    (fetchRecord env d siteRoot norm t).outLinks = []
      ∧ (fetchRecord env d siteRoot norm t).html = none := by
  cases hf : env.fetch norm with
  | err s m => simp [fetchRecord, hf]
  | ok stat body =>
    cases he : extractLinks (env.anchors body) norm with
    | none => simp [fetchRecord, hf, he]
    | some outLinks =>
      rw [fetchRecord, hf] at h
      simp only [he] at h
      simp at h

lemma crawlLoop_nil (env : Web) (d sr : String) (fuel : Nat) (st : CrawlState)
    (h : st.queue = []) : crawlLoop env d sr fuel st = some st := by
  rw [crawlLoop, h]

lemma crawlLoop_cons (env : Web) (d sr : String) (fuel : Nat) (st : CrawlState)
    (url : String) (rest : List String) (h : st.queue = url :: rest) :
    crawlLoop env d sr (fuel + 1) st
      = (processUrl env d sr { st with queue := rest } url).bind
          (crawlLoop env d sr fuel) := by
  rw [crawlLoop, h]

lemma processUrl_cases {env : Web} {d sr : String} {st : CrawlState} {url : String}
    {st' : CrawlState} (h : processUrl env d sr st url = some st') :
    st' = st
    ∨ (∃ norm, normalizeUrl url = some norm ∧ inBoundary norm sr = true
        ∧ norm ∉ st.seen
        ∧ (st' = { st with seen := norm :: st.seen }
          ∨ (∃ stm : CrawlState,
              (stm = { st with seen := norm :: st.seen }
                ∨ stm = CrawlState.mk st.queue (norm :: st.seen)
                    (deleteOnePage st.pages d norm) (deleteEdgesFrom st.links d norm)
                    st.fetchedTrace st.now)
              ∧ st' = processFetch env d sr stm norm))) := by
  simp only [processUrl] at h
  by_cases hemp : url = ""
  · rw [if_pos hemp] at h
    injection h with h
    exact Or.inl h.symm
  · rw [if_neg hemp] at h
    cases hn : normalizeUrl url with
    | none =>
      simp only [hn] at h
      exact absurd h (by simp)
    | some norm =>
      simp only [hn] at h
      by_cases hb : inBoundary norm sr = true
      · rw [if_pos hb] at h
        by_cases hs : norm ∈ st.seen
        · rw [if_pos hs] at h
          injection h with h
          exact Or.inl h.symm
        · rw [if_neg hs] at h
          right
          refine ⟨norm, rfl, hb, hs, ?_⟩
          cases hf : findPage st.pages d norm with
          | some ex =>
            simp only [hf] at h
            by_cases hsucc : ex.status = 200 ∧ htmlTruthy ex = true
            · rw [if_pos hsucc] at h
              injection h with h
              exact Or.inl h.symm
            · rw [if_neg hsucc] at h
              injection h with h
              exact Or.inr ⟨_, Or.inr rfl, h.symm⟩
          | none =>
            simp only [hf] at h
            injection h with h
            exact Or.inr ⟨_, Or.inl rfl, h.symm⟩
      · rw [if_neg hb] at h
        injection h with h
        exact Or.inl h.symm

lemma crawlLoop_zero_cons (env : Web) (d sr : String) (st : CrawlState)
    (url : String) (rest : List String) (h : st.queue = url :: rest) :
    crawlLoop env d sr 0 st = none := by
  rw [crawlLoop, h]

lemma crawlLoop_inv (env : Web) (d sr : String) (P : CrawlState → Prop)
    (hq : ∀ st q, P st → P { st with queue := q })
    (hstep : ∀ st url st', P st → processUrl env d sr st url = some st' → P st') :
    ∀ (fuel : Nat) (st final : CrawlState),
      crawlLoop env d sr fuel st = some final → P st → P final := by
  intro fuel
  induction fuel with
  | zero =>
    intro st final h hP
    cases hqe : st.queue with
    | nil =>
      rw [crawlLoop_nil env d sr 0 st hqe] at h
      injection h with h
      exact h ▸ hP
    | cons url rest =>
      rw [crawlLoop_zero_cons env d sr st url rest hqe] at h
      exact absurd h (by simp)
  | succ n ih =>
    intro st final h hP
    cases hqe : st.queue with
    | nil =>
      rw [crawlLoop_nil env d sr (n + 1) st hqe] at h
      injection h with h
      exact h ▸ hP
    | cons url rest =>
      rw [crawlLoop_cons env d sr n st url rest hqe] at h
      cases hpu : processUrl env d sr { st with queue := rest } url with
      | none => rw [hpu] at h; simp at h
      | some st' =>
        rw [hpu] at h
        simp only [Option.some_bind] at h
        exact ih st' final h (hstep _ _ _ (hq st rest hP) hpu)

/-- C3 counterexample: the boundary prefix hard-codes the fixed owner
segment `~avamckenney/`, so for the spec's seed
`https://example.org/~owner/set/N-0.html` the claimed in-boundary URL
`https://example.org/~owner/set/page2.html` is NOT in boundary: the
prefix test against the derived root fails. -/
theorem c3_boundary_counterexample :
    siteRootFromSeed "https://example.org/~owner/set/N-0.html"
      = some "https://example.org/~avamckenney/"
    ∧ normalizeUrl "https://example.org/~owner/set/page2.html"
      = some "https://example.org/~owner/set/page2.html"
    ∧ inBoundary "https://example.org/~owner/set/page2.html"
        "https://example.org/~avamckenney/" = false := by
  refine ⟨by decide, by decide, by decide⟩

/-- C3 (amended): `siteRootFromSeed` is the seed's origin plus the fixed
owner segment `/~avamckenney/`, and `inBoundary` is a string prefix test
on the canonical form; for a seed inside that owner subtree the sibling
page is in boundary and a URL outside the subtree is not. -/
theorem c3_boundary_amended :
    siteRootFromSeed "https://example.org/~avamckenney/set/N-0.html"
      = some "https://example.org/~avamckenney/"
    ∧ normalizeUrl "https://example.org/~avamckenney/set/page2.html"
      = some "https://example.org/~avamckenney/set/page2.html"
    ∧ inBoundary "https://example.org/~avamckenney/set/page2.html"
        "https://example.org/~avamckenney/" = true
    ∧ normalizeUrl "https://example.org/other/page.html"
      = some "https://example.org/other/page.html"
    ∧ inBoundary "https://example.org/other/page.html"
        "https://example.org/~avamckenney/" = false := by
  refine ⟨by decide, by decide, by decide, by decide, by decide⟩

/-- C8 counterexample: `normalizeUrl` is not idempotent on every parseable
absolute URL: for `https://example.org/a//` one application strips a
single trailing slash giving `https://example.org/a/`, and a second
application strips another. -/
theorem c8_idempotence_counterexample :
    normalizeUrl "https://example.org/a//" = some "https://example.org/a/"
    ∧ normalizeUrl "https://example.org/a/" = some "https://example.org/a"
    ∧ (normalizeUrl "https://example.org/a//").bind normalizeUrl
        ≠ normalizeUrl "https://example.org/a//" := by
  refine ⟨by decide, by decide, by decide⟩

/-- C8 (amended): `normalizeUrl` is idempotent on every URL whose
canonical form does not end in `/` — equivalently, the double slash at
the end of the serialized form is the only source of non-idempotence. -/
theorem c8_idempotence_amended (u n : String) (h : normalizeUrl u = some n)
    (hns : n.data.getLast? ≠ some '/') :
    (normalizeUrl u).bind normalizeUrl = normalizeUrl u := by
  rw [h, Option.some_bind, normalizeUrl_fixpoint h hns]

/-- Witness for the amended C8 at a concrete input. -/
theorem c8_idempotence_amended_witness :
    (normalizeUrl "https://example.org/a/").bind normalizeUrl
      = normalizeUrl "https://example.org/a/" :=
  c8_idempotence_amended "https://example.org/a/" "https://example.org/a"
    (by decide) (by decide)

/-- C7 counterexample: in the current crawler, a single malformed href
(`http://`, which `new URL` rejects) aborts the whole extraction of
`extractLinks` — the well-formed second href is lost — whereas the
library variant's `extractLinksFromCheerio` skips it. -/
theorem c7_malformed_counterexample :
    extractLinks
        ["http://", "https://people.scs.carleton.ca/~avamckenney/tinyfruits/N-1.html"]
        "https://people.scs.carleton.ca/~avamckenney/tinyfruits/N-0.html" = none
    ∧ extractLinksFromCheerio
        ["http://", "https://people.scs.carleton.ca/~avamckenney/tinyfruits/N-1.html"]
        "https://people.scs.carleton.ca/~avamckenney/tinyfruits/N-0.html"
      = ["https://people.scs.carleton.ca/~avamckenney/tinyfruits/N-1.html"] := by
  refine ⟨by decide, by decide⟩

/-- C7 (amended): only `extractLinksFromCheerio` tolerates malformed
hrefs — removing an unresolvable href does not change its result — while
`extractLinks` of the current crawler aborts the whole page's extraction
on any single malformed href (the failure is then caught by the fetch
loop's catch block and the page recorded as a failure). -/
theorem c7_malformed_tolerance_amended (pre post : List String) (bad base : String)
    (hbad : resolveAndNormalize base bad = none) (hne : bad ≠ "") :
    extractLinksFromCheerio (pre ++ bad :: post) base
      = extractLinksFromCheerio (pre ++ post) base
    ∧ extractLinks (pre ++ bad :: post) base = none := by
  constructor
  · simp [extractLinksFromCheerio, List.filter_append, List.filter_cons,
      List.filterMap_append, List.filterMap_cons, hne, hbad]
  · have hmem : bad ∈ (pre ++ bad :: post).filter (fun h => !(h = "")) := by
      rw [List.mem_filter]
      exact ⟨by simp, by simp [hne]⟩
    rw [extractLinks, mapOption_none_of_mem hmem hbad]
    rfl

/-- Witness for the amended C7 at a concrete input. -/
theorem c7_malformed_tolerance_amended_witness :
    extractLinksFromCheerio
        ([] ++ "http://" :: ["https://people.scs.carleton.ca/~avamckenney/tinyfruits/N-1.html"])
        "https://people.scs.carleton.ca/~avamckenney/tinyfruits/N-0.html"
      = extractLinksFromCheerio
          ([] ++ ["https://people.scs.carleton.ca/~avamckenney/tinyfruits/N-1.html"])
          "https://people.scs.carleton.ca/~avamckenney/tinyfruits/N-0.html"
    ∧ extractLinks
        ([] ++ "http://" :: ["https://people.scs.carleton.ca/~avamckenney/tinyfruits/N-1.html"])
        "https://people.scs.carleton.ca/~avamckenney/tinyfruits/N-0.html" = none :=
  c7_malformed_tolerance_amended []
    ["https://people.scs.carleton.ca/~avamckenney/tinyfruits/N-1.html"]
    "http://" "https://people.scs.carleton.ca/~avamckenney/tinyfruits/N-0.html"
    (by decide) (by decide)

lemma processUrl_fresh_clean (env : Web) (d sr : String) (st : CrawlState)
    (url norm : String) (hne : url ≠ "") (hn : normalizeUrl url = some norm)
    (hb : inBoundary norm sr = true) (hfresh : norm ∉ st.seen)
    (hpages : pagesFor st.pages d norm = []) :
    processUrl env d sr st url
      = some (processFetch env d sr { st with seen := norm :: st.seen } norm) := by
  have hfp : findPage st.pages d norm = none := findPage_none_iff.mpr hpages
  simp only [processUrl, if_neg hne, hn, if_pos hb, if_neg hfresh, hfp]

lemma processUrl_fresh_failed (env : Web) (d sr : String) (st : CrawlState)
    (url norm : String) (r : PageRecord) (hne : url ≠ "")
    (hn : normalizeUrl url = some norm) (hb : inBoundary norm sr = true)
    (hfresh : norm ∉ st.seen) (hpages : pagesFor st.pages d norm = [r])
    (hnot : ¬(r.status = 200 ∧ htmlTruthy r = true)) :
    processUrl env d sr st url
      = some (processFetch env d sr
          (CrawlState.mk st.queue (norm :: st.seen) (deleteOnePage st.pages d norm)
            (deleteEdgesFrom st.links d norm) st.fetchedTrace st.now) norm) := by
  have hfp : findPage st.pages d norm = some r := findPage_of_pagesFor hpages
  simp only [processUrl, if_neg hne, hn, if_pos hb, if_neg hfresh, hfp, if_neg hnot]

lemma fetchEdges_parts (env : Web) (d sr norm : String) :
    ∀ e ∈ fetchEdges env d sr norm,
      e.dataset = d ∧ e.«from» = norm ∧ e.«to» ≠ norm
        ∧ e.«to» ∈ (fetchRecord env d sr norm 0).outLinks := by
  intro e he
  simp only [fetchEdges, List.mem_map, List.mem_filter] at he
  obtain ⟨l, ⟨hl1, hl2⟩, rfl⟩ := he
  refine ⟨rfl, rfl, by simpa using hl2, hl1⟩

lemma fetchEdges_nodup (env : Web) (d sr norm : String) :
    (fetchEdges env d sr norm).Nodup := by
  refine List.Nodup.map ?_ (List.Nodup.filter _ (fetchRecord_outLinks_nodup env d sr norm 0))
  intro a b hab
  simpa using hab

lemma edgesFrom_insertEdges_clean {links : List LinkEdge} {d norm : String}
    {batch : List LinkEdge} (hclean : edgesFrom links d norm = [])
    (hbatch : ∀ e ∈ batch, e.dataset = d ∧ e.«from» = norm) (hnd : batch.Nodup) :
    edgesFrom (insertEdges links batch) d norm = batch := by
  have hfresh : ∀ e ∈ batch, e ∉ links := by
    intro e he hmem
    obtain ⟨h1, h2⟩ := hbatch e he
    have : e ∈ edgesFrom links d norm := by
      rw [edgesFrom, List.mem_filter]
      exact ⟨hmem, by simp [edgeFromMatches, h1, h2]⟩
    rw [hclean] at this
    simp at this
  rw [insertEdges_fresh hnd hfresh, edgesFrom, List.filter_append, ← edgesFrom, hclean,
    List.nil_append]
  rw [List.filter_eq_self]
  intro e he
  obtain ⟨h1, h2⟩ := hbatch e he
  simp [edgeFromMatches, h1, h2]

/-- C6: for every dequeued URL whose fetch fails (rejected promise:
network error, timeout, or non-2xx status), a PageRecord is persisted
with status `e.response?.status ?? 0`, `html` null, empty `outLinks` and
the non-empty error message; no links are extracted, nothing is enqueued
from it, no edges from it remain, and the loop iteration returns
normally (the run continues). -/
theorem c6_failure_recording (env : Web) (d sr : String) (st : CrawlState)
    (url norm : String) (status? : Option Nat) (msg : String)
    (hne : url ≠ "") (hn : normalizeUrl url = some norm)
    (hb : inBoundary norm sr = true) (hfresh : norm ∉ st.seen)
    (hfetch : env.fetch norm = .err status? msg) (hmsg : msg ≠ "")
    (hprior : pagesFor st.pages d norm = []
      ∨ ∃ r, pagesFor st.pages d norm = [r] ∧ ¬(r.status = 200 ∧ htmlTruthy r = true))
    (hstale : edgesFrom st.links d norm = []) :
    ∃ st', processUrl env d sr st url = some st'
      ∧ pagesFor st'.pages d norm
          = [PageRecord.mk d norm (status?.getD 0) none [] st.now (some msg)]
      ∧ (∀ r ∈ pagesFor st'.pages d norm, r.status = status?.getD 0 ∧ r.html = none
          ∧ r.outLinks = [] ∧ ∃ m, r.error = some m ∧ m ≠ "")
      ∧ edgesFrom st'.links d norm = []
      ∧ st'.queue = st.queue
      ∧ st'.fetchedTrace = st.fetchedTrace ++ [norm] := by
  have hrec : ∀ t : Nat, fetchRecord env d sr norm t
      = PageRecord.mk d norm (status?.getD 0) none [] t (some msg) := by
    intro t
    simp [fetchRecord, hfetch]
  have hed : fetchEdges env d sr norm = [] := by
    simp [fetchEdges, fetchRecord, hfetch]
  have henq : fetchEnqueue env d sr norm = [] := by
    simp [fetchEnqueue, fetchRecord, hfetch]
  have hmatch : pageMatches d norm (PageRecord.mk d norm (status?.getD 0) none [] st.now
      (some msg)) = true := pageMatches_self rfl rfl
  rcases hprior with hclean | ⟨r, hr, hnot⟩
  · refine ⟨_, processUrl_fresh_clean env d sr st url norm hne hn hb hfresh hclean, ?_⟩
    rw [processFetch_eq]
    simp only [hrec, hed, henq, List.append_nil]
    refine ⟨?_, ?_, ?_, trivial, trivial⟩
    · rw [pagesFor_insert_match hmatch (findPage_none_iff.mpr hclean)]
    · rw [pagesFor_insert_match hmatch (findPage_none_iff.mpr hclean)]
      intro rr hrr
      simp only [List.mem_singleton] at hrr
      subst hrr
      exact ⟨rfl, rfl, rfl, msg, rfl, hmsg⟩
    · rw [show insertEdges st.links [] = st.links from rfl, hstale]
  · refine ⟨_, processUrl_fresh_failed env d sr st url norm r hne hn hb hfresh hr hnot, ?_⟩
    rw [processFetch_eq]
    simp only [hrec, hed, henq, List.append_nil]
    have hdel : pagesFor (deleteOnePage st.pages d norm) d norm = [] :=
      pagesFor_deleteOne_self hr
    refine ⟨?_, ?_, ?_, trivial, trivial⟩
    · rw [pagesFor_insert_match hmatch (findPage_none_iff.mpr hdel)]
    · rw [pagesFor_insert_match hmatch (findPage_none_iff.mpr hdel)]
      intro rr hrr
      simp only [List.mem_singleton] at hrr
      subst hrr
      exact ⟨rfl, rfl, rfl, msg, rfl, hmsg⟩
    · rw [show insertEdges (deleteEdgesFrom st.links d norm) [] = deleteEdgesFrom st.links d norm
        from rfl]
      exact edgesFrom_deleteEdgesFrom_self st.links d norm

/-- The tinyfruits seed URL, as registered in `DATASETS`. -/
def seedTiny : String := "https://people.scs.carleton.ca/~avamckenney/tinyfruits/N-0.html"

/-- The boundary prefix derived from the tinyfruits seed. -/
def rootTiny : String := "https://people.scs.carleton.ca/~avamckenney/"

/-- A canonical in-boundary page of the tinyfruits dataset. -/
def pageTiny1 : String := "https://people.scs.carleton.ca/~avamckenney/tinyfruits/N-1.html"

/-- A web where every fetch times out. -/
def webTimeout : Web :=
  ⟨fun _ => .err none "timeout of 20000ms exceeded", fun _ => []⟩

/-- A two-page web: the seed links to `N-1.html` (relative), itself, and
an external URL; every other fetch fails. -/
def webTiny : Web :=
  ⟨fun u => if u = seedTiny then .ok 200 "doc0" else .err none "getaddrinfo ENOTFOUND",
    fun b => if b = "doc0" then ["N-1.html", seedTiny, "https://ext.example/x"] else []⟩

/-- The empty crawl state with clock 0. -/
def stEmpty : CrawlState := ⟨[], [], [], [], [], 0⟩

/-- Witness for C6 at a concrete timed-out fetch of the tinyfruits seed. -/
theorem c6_failure_recording_witness :
    ∃ st', processUrl webTimeout "tinyfruits" rootTiny stEmpty seedTiny = some st'
      ∧ pagesFor st'.pages "tinyfruits" seedTiny
          = [PageRecord.mk "tinyfruits" seedTiny 0 none [] 0
              (some "timeout of 20000ms exceeded")]
      ∧ (∀ r ∈ pagesFor st'.pages "tinyfruits" seedTiny, r.status = 0 ∧ r.html = none
          ∧ r.outLinks = [] ∧ ∃ m, r.error = some m ∧ m ≠ "")
      ∧ edgesFrom st'.links "tinyfruits" seedTiny = []
      ∧ st'.queue = ([] : List String)
      ∧ st'.fetchedTrace = [] ++ [seedTiny] :=
  c6_failure_recording webTimeout "tinyfruits" rootTiny stEmpty seedTiny seedTiny none
    "timeout of 20000ms exceeded" (by decide) (by decide) (by decide) (by decide) rfl
    (by decide) (Or.inl rfl) rfl

/-- C10: the edges written in a crawl step agree with the page record
persisted in that same step: they are exactly the record's `outLinks`
minus the page's own canonical URL, so every persisted edge's `to`
appears in the `outLinks` of the record stored for its `from`. -/
theorem c10_edges_match_record (env : Web) (d sr : String) (st : CrawlState)
    (url norm : String) (hne : url ≠ "") (hn : normalizeUrl url = some norm)
    (hb : inBoundary norm sr = true) (hfresh : norm ∉ st.seen)
    (hprior : pagesFor st.pages d norm = []
      ∨ ∃ r, pagesFor st.pages d norm = [r] ∧ ¬(r.status = 200 ∧ htmlTruthy r = true))
    (hstale : edgesFrom st.links d norm = []) :
    ∃ st' rec, processUrl env d sr st url = some st'
      ∧ pagesFor st'.pages d norm = [rec]
      ∧ edgesFrom st'.links d norm
          = (rec.outLinks.filter (fun l => !(l = norm))).map (fun l => LinkEdge.mk d norm l)
      ∧ ∀ e ∈ edgesFrom st'.links d norm, e.«to» ∈ rec.outLinks ∧ e.«to» ≠ norm := by
  have hmatch : pageMatches d norm (fetchRecord env d sr norm st.now) = true :=
    pageMatches_self (fetchRecord_dataset env d sr norm st.now)
      (fetchRecord_url env d sr norm st.now)
  have hfe : fetchEdges env d sr norm
      = ((fetchRecord env d sr norm st.now).outLinks.filter (fun l => !(l = norm))).map
          (fun l => LinkEdge.mk d norm l) := by
    rw [fetchEdges, fetchRecord_outLinks_t env d sr norm 0 st.now]
  have hparts := fetchEdges_parts env d sr norm
  have hmemcl : ∀ e ∈ fetchEdges env d sr norm, e.dataset = d ∧ e.«from» = norm :=
    fun e he => ⟨(hparts e he).1, (hparts e he).2.1⟩
  have hlastc : ∀ (links' : List LinkEdge),
      edgesFrom links' d norm = fetchEdges env d sr norm →
      ∀ e ∈ edgesFrom links' d norm,
        e.«to» ∈ (fetchRecord env d sr norm st.now).outLinks ∧ e.«to» ≠ norm := by
    intro links' hl e he
    rw [hl] at he
    obtain ⟨_, _, hto, hmem⟩ := hparts e he
    rw [fetchRecord_outLinks_t env d sr norm 0 st.now] at hmem
    exact ⟨hmem, hto⟩
  rcases hprior with hclean | ⟨r, hr, hnot⟩
  · refine ⟨_, fetchRecord env d sr norm st.now,
      processUrl_fresh_clean env d sr st url norm hne hn hb hfresh hclean, ?_⟩
    rw [processFetch_eq]
    have hed : edgesFrom (insertEdges st.links (fetchEdges env d sr norm)) d norm
        = fetchEdges env d sr norm :=
      edgesFrom_insertEdges_clean hstale hmemcl (fetchEdges_nodup env d sr norm)
    exact ⟨pagesFor_insert_match hmatch (findPage_none_iff.mpr hclean),
      by rw [hed, hfe], hlastc _ hed⟩
  · refine ⟨_, fetchRecord env d sr norm st.now,
      processUrl_fresh_failed env d sr st url norm r hne hn hb hfresh hr hnot, ?_⟩
    rw [processFetch_eq]
    have hdel : pagesFor (deleteOnePage st.pages d norm) d norm = [] :=
      pagesFor_deleteOne_self hr
    have hed : edgesFrom
        (insertEdges (deleteEdgesFrom st.links d norm) (fetchEdges env d sr norm)) d norm
        = fetchEdges env d sr norm :=
      edgesFrom_insertEdges_clean (edgesFrom_deleteEdgesFrom_self st.links d norm)
        hmemcl (fetchEdges_nodup env d sr norm)
    exact ⟨pagesFor_insert_match hmatch (findPage_none_iff.mpr hdel),
      by rw [hed, hfe], hlastc _ hed⟩

/-- Witness for C10 at a concrete successful fetch of the tinyfruits
seed whose page links to `N-1.html`, itself, and an external URL. -/
theorem c10_edges_match_record_witness :
    ∃ st' rec, processUrl webTiny "tinyfruits" rootTiny stEmpty seedTiny = some st'
      ∧ pagesFor st'.pages "tinyfruits" seedTiny = [rec]
      ∧ edgesFrom st'.links "tinyfruits" seedTiny
          = (rec.outLinks.filter (fun l => !(l = seedTiny))).map
              (fun l => LinkEdge.mk "tinyfruits" seedTiny l)
      ∧ ∀ e ∈ edgesFrom st'.links "tinyfruits" seedTiny,
          e.«to» ∈ rec.outLinks ∧ e.«to» ≠ seedTiny :=
  c10_edges_match_record webTiny "tinyfruits" rootTiny stEmpty seedTiny seedTiny
    (by decide) (by decide) (by decide) (by decide) (Or.inl rfl) rfl

lemma insertPageOnce_mem {pages : List PageRecord} {r x : PageRecord}
    (h : x ∈ insertPageOnce pages r) : x ∈ pages ∨ x = r := by
  rw [insertPageOnce] at h
  by_cases hf : (findPage pages r.dataset r.url).isSome
  · rw [if_pos hf] at h
    exact Or.inl h
  · rw [if_neg hf] at h
    rcases List.mem_append.mp h with hm | hm
    · exact Or.inl hm
    · exact Or.inr (by simpa using hm)

lemma deleteOnePage_subset (pages : List PageRecord) (d u : String) :
    ∀ x ∈ deleteOnePage pages d u, x ∈ pages := by
  intro x hx
  exact List.eraseP_subset _ hx

lemma deleteEdgesFrom_subset (links : List LinkEdge) (d u : String) :
    ∀ e ∈ deleteEdgesFrom links d u, e ∈ links := by
  intro e he
  exact List.mem_of_mem_filter he

lemma crawlDataset_run {env : Web} {d : String} {pages0 : List PageRecord}
    {links0 : List LinkEdge} {fuel clk : Nat} {final : CrawlState}
    (h : crawlDataset env d pages0 links0 fuel clk = some final) :
    ∃ seed sr, DATASETS d = some seed ∧ siteRootFromSeed seed = some sr
      ∧ crawlLoop env d sr fuel ⟨[seed], [], pages0, links0, [], clk⟩ = some final := by
  rw [crawlDataset] at h
  cases hd : DATASETS d with
  | none => simp only [hd] at h; exact absurd h (by simp)
  | some seed =>
    simp only [hd] at h
    cases hsr : siteRootFromSeed seed with
    | none => simp only [hsr] at h; exact absurd h (by simp)
    | some sr =>
      simp only [hsr] at h
      exact ⟨seed, sr, rfl, hsr, h⟩

/-- C2: within one `crawlDataset` run every canonical URL is fetched at
most once (the fetch trace has no duplicates); every fetched URL was
claimed in the seen set, and once seen a URL is never fetched again; the
frontier is FIFO: the loop processes the head of the queue, discovered
links are appended at the back, and an empty queue ends the loop with the
state returned unchanged. -/
theorem c2_at_most_once (env : Web) (d : String) (pages0 : List PageRecord)
    (links0 : List LinkEdge) (fuel clk : Nat) (final : CrawlState)
    (hrun : crawlDataset env d pages0 links0 fuel clk = some final) :
    final.fetchedTrace.Nodup
    ∧ (∀ u ∈ final.fetchedTrace, u ∈ final.seen)
    ∧ (∀ (sr : String) (fuel' : Nat) (st : CrawlState), st.queue = [] →
        crawlLoop env d sr fuel' st = some st)
    ∧ (∀ (sr : String) (fuel' : Nat) (st : CrawlState) (url : String) (rest : List String),
        st.queue = url :: rest →
        crawlLoop env d sr (fuel' + 1) st
          = (processUrl env d sr { st with queue := rest } url).bind
              (crawlLoop env d sr fuel'))
    ∧ (∀ (sr : String) (st : CrawlState) (url : String) (st' : CrawlState),
        processUrl env d sr st url = some st' →
        ∃ added, st'.queue = st.queue ++ added) := by
  obtain ⟨seed, sr, _, _, hloop⟩ := crawlDataset_run hrun
  have hqueue : ∀ (sr' : String) (st : CrawlState) (url : String) (st' : CrawlState),
      processUrl env d sr' st url = some st' →
      ∃ added, st'.queue = st.queue ++ added := by
    intro sr' st url st' h
    rcases processUrl_cases h with rfl | ⟨norm, _, _, _, hcase⟩
    · exact ⟨[], by simp⟩
    · rcases hcase with rfl | ⟨stm, hstm, rfl⟩
      · exact ⟨[], by simp⟩
      · rw [processFetch_eq]
        rcases hstm with rfl | rfl
        · exact ⟨fetchEnqueue env d sr' norm, rfl⟩
        · exact ⟨fetchEnqueue env d sr' norm, rfl⟩
  have hinv := crawlLoop_inv env d sr
    (fun st => st.fetchedTrace.Nodup ∧ ∀ u ∈ st.fetchedTrace, u ∈ st.seen)
    (fun st q hP => hP)
    (by
      intro st url st' hP hpu
      rcases processUrl_cases hpu with rfl | ⟨norm, _, _, hfresh, hcase⟩
      · exact hP
      · rcases hcase with rfl | ⟨stm, hstm, rfl⟩
        · exact ⟨hP.1, fun u hu => List.mem_cons_of_mem _ (hP.2 u hu)⟩
        · rw [processFetch_eq]
          have hstmT : stm.fetchedTrace = st.fetchedTrace ∧ stm.seen = norm :: st.seen := by
            rcases hstm with rfl | rfl <;> exact ⟨rfl, rfl⟩
          constructor
          · simp only [hstmT.1, List.nodup_append, List.nodup_cons]
            refine ⟨hP.1, by simp, ?_⟩
            intro u hu
            simp only [List.mem_singleton]
            intro hcon
            subst hcon
            exact hfresh (hP.2 u hu)
          · intro u hu
            simp only [hstmT.1, List.mem_append, List.mem_singleton] at hu
            simp only [hstmT.2]
            rcases hu with hu | rfl
            · exact List.mem_cons_of_mem _ (hP.2 u hu)
            · simp)
    fuel _ final hloop ⟨by simp, by simp⟩
  exact ⟨hinv.1, hinv.2,
    fun sr' fuel' st h => crawlLoop_nil env d sr' fuel' st h,
    fun sr' fuel' st url rest h => crawlLoop_cons env d sr' fuel' st url rest h,
    hqueue⟩

/-- The result state of a small complete tinyfruits crawl of `webTiny`. -/
def finalTiny : CrawlState :=
  (crawlDataset webTiny "tinyfruits" [] [] 9 0).getD stEmpty

/-- Witness for C2 on a concrete complete run. -/
theorem c2_at_most_once_witness : finalTiny.fetchedTrace.Nodup :=
  (c2_at_most_once webTiny "tinyfruits" [] [] 9 0 finalTiny (by decide)).1

/-- Boundary discipline of one persisted page record: out-links are
in-boundary canonical URLs, and a failure record has no body and no
out-links. -/
def pageBoundaryOk (sr : String) (r : PageRecord) : Prop :=
  (∀ l ∈ r.outLinks, inBoundary l sr = true ∧ ∃ s, normalizeUrl s = some l)
  ∧ (r.error.isSome → r.outLinks = [] ∧ r.html = none)

/-- C4: boundary-respecting persisted link data — if every page record of
the initial database has only in-boundary canonical out-links (empty on
failure) and every initial edge's `to` is in boundary, then the same
holds of the database after any `crawlDataset` run, for the boundary
prefix derived from the dataset's seed. -/
theorem c4_boundary_respecting (env : Web) (d : String) (pages0 : List PageRecord)
    (links0 : List LinkEdge) (fuel clk : Nat) (final : CrawlState) (seed sr : String)
    (hseed : DATASETS d = some seed) (hsr : siteRootFromSeed seed = some sr)
    (hrun : crawlDataset env d pages0 links0 fuel clk = some final)
    (hp0 : ∀ r ∈ pages0, pageBoundaryOk sr r)
    (hl0 : ∀ e ∈ links0, inBoundary e.«to» sr = true) :
    (∀ r ∈ final.pages, pageBoundaryOk sr r)
    ∧ (∀ e ∈ final.links, inBoundary e.«to» sr = true) := by
  obtain ⟨seed', sr', hseed', hsr', hloop⟩ := crawlDataset_run hrun
  rw [hseed'] at hseed
  injection hseed with hseed
  subst hseed
  rw [hsr'] at hsr
  injection hsr with hsr
  rw [hsr] at hloop
  have hrecOk : ∀ norm t, pageBoundaryOk sr (fetchRecord env d sr norm t) := by
    intro norm t
    constructor
    · exact fetchRecord_outLinks_bound env d sr norm t
    · exact fetchRecord_failure env d sr norm t
  have hedOk : ∀ norm, ∀ e ∈ fetchEdges env d sr norm, inBoundary e.«to» sr = true := by
    intro norm e he
    obtain ⟨_, _, _, hmem⟩ := fetchEdges_parts env d sr norm e he
    exact ((fetchRecord_outLinks_bound env d sr norm 0) _ hmem).1
  exact crawlLoop_inv env d sr
    (fun st => (∀ r ∈ st.pages, pageBoundaryOk sr r)
      ∧ ∀ e ∈ st.links, inBoundary e.«to» sr = true)
    (fun st q hP => hP)
    (by
      intro st url st' hP hpu
      rcases processUrl_cases hpu with rfl | ⟨norm, _, _, _, hcase⟩
      · exact hP
      · rcases hcase with rfl | ⟨stm, hstm, rfl⟩
        · exact hP
        · rw [processFetch_eq]
          have hstmPL : (∀ r ∈ stm.pages, pageBoundaryOk sr r)
              ∧ ∀ e ∈ stm.links, inBoundary e.«to» sr = true := by
            rcases hstm with rfl | rfl
            · exact hP
            · exact ⟨fun r hr => hP.1 r (deleteOnePage_subset st.pages d norm r hr),
                fun e he => hP.2 e (deleteEdgesFrom_subset st.links d norm e he)⟩
          constructor
          · intro r hr
            rcases insertPageOnce_mem hr with hm | rfl
            · exact hstmPL.1 r hm
            · exact hrecOk norm stm.now
          · intro e he
            rcases insertEdges_mem he with hm | hm
            · exact hstmPL.2 e hm
            · exact hedOk norm e hm)
    fuel _ final hloop ⟨hp0, hl0⟩

/-- Witness for C4 on a concrete complete run from an empty database. -/
theorem c4_boundary_respecting_witness :
    finalTiny.links.all (fun e => inBoundary e.«to» rootTiny) = true := by
  have h := c4_boundary_respecting webTiny "tinyfruits" [] [] 9 0 finalTiny seedTiny rootTiny
    (by decide) (by decide) (by decide) (by simp) (by simp)
  exact List.all_eq_true.mpr h.2

/-- C5: no self-edges — if the initial database has no edge with
`from = to`, then after any `crawlDataset` run no persisted edge has
`from = to`; moreover a page's link to itself is never enqueued: every
frontier entry a loop iteration adds differs from the canonical URL of
the page being processed. -/
theorem c5_no_self_edges (env : Web) (d : String) (pages0 : List PageRecord)
    (links0 : List LinkEdge) (fuel clk : Nat) (final : CrawlState)
    (hrun : crawlDataset env d pages0 links0 fuel clk = some final)
    (hl0 : ∀ e ∈ links0, e.«from» ≠ e.«to») :
    (∀ e ∈ final.links, e.«from» ≠ e.«to»)
    ∧ (∀ (sr : String) (st : CrawlState) (url : String) (st' : CrawlState) (n : String),
        processUrl env d sr st url = some st' → normalizeUrl url = some n →
        ∀ q ∈ st'.queue, q ∈ st.queue ∨ q ≠ n) := by
  obtain ⟨seed, sr, _, _, hloop⟩ := crawlDataset_run hrun
  constructor
  · exact (crawlLoop_inv env d sr (fun st => ∀ e ∈ st.links, e.«from» ≠ e.«to»)
      (fun st q hP => hP)
      (by
        intro st url st' hP hpu
        rcases processUrl_cases hpu with rfl | ⟨norm, _, _, _, hcase⟩
        · exact hP
        · rcases hcase with rfl | ⟨stm, hstm, rfl⟩
          · exact hP
          · rw [processFetch_eq]
            have hstmL : ∀ e ∈ stm.links, e.«from» ≠ e.«to» := by
              rcases hstm with rfl | rfl
              · exact hP
              · exact fun e he => hP e (deleteEdgesFrom_subset st.links d norm e he)
            intro e he
            rcases insertEdges_mem he with hm | hm
            · exact hstmL e hm
            · obtain ⟨_, hfrom, hto, _⟩ := fetchEdges_parts env d sr norm e hm
              rw [hfrom]
              exact fun hcon => hto hcon.symm)
      fuel _ final hloop hl0)
  · intro sr' st url st' n hpu hn
    rcases processUrl_cases hpu with rfl | ⟨norm, hn', _, _, hcase⟩
    · exact fun q hq => Or.inl hq
    · rw [hn] at hn'
      injection hn' with hn'
      subst hn'
      rcases hcase with rfl | ⟨stm, hstm, rfl⟩
      · exact fun q hq => Or.inl hq
      · rw [processFetch_eq]
        have hstmQ : stm.queue = st.queue := by
          rcases hstm with rfl | rfl <;> rfl
        intro q hq
        simp only [hstmQ, List.mem_append] at hq
        rcases hq with hq | hq
        · exact Or.inl hq
        · right
          simp only [fetchEnqueue, List.mem_filter] at hq
          intro hcon
          subst hcon
          simpa using hq.2

/-- Witness for C5 on a concrete complete run from an empty database. -/
theorem c5_no_self_edges_witness :
    finalTiny.links.all (fun e => !(e.«from» == e.«to»)) = true := by
  have h := c5_no_self_edges webTiny "tinyfruits" [] [] 9 0 finalTiny (by decide) (by simp)
  exact List.all_eq_true.mpr (fun e he => by simpa using h.1 e he)

lemma processUrl_empty (env : Web) (d sr : String) (st : CrawlState)
    {url : String} (hurl : url = "") : processUrl env d sr st url = some st := by
  simp [processUrl, hurl]

lemma processUrl_out (env : Web) (d sr : String) (st : CrawlState)
    {url norm : String} (hne : url ≠ "") (hn : normalizeUrl url = some norm)
    (hb : inBoundary norm sr = false) : processUrl env d sr st url = some st := by
  simp only [processUrl, if_neg hne, hn]
  rw [if_neg (by simp [hb])]

lemma processUrl_seen (env : Web) (d sr : String) (st : CrawlState)
    {url norm : String} (hne : url ≠ "") (hn : normalizeUrl url = some norm)
    (hb : inBoundary norm sr = true) (hseen : norm ∈ st.seen) :
    processUrl env d sr st url = some st := by
  simp only [processUrl, if_neg hne, hn, if_pos hb, if_pos hseen]

lemma processUrl_skip_success (env : Web) (d sr : String) (st : CrawlState)
    {url norm : String} {ex : PageRecord} (hne : url ≠ "")
    (hn : normalizeUrl url = some norm) (hb : inBoundary norm sr = true)
    (hfresh : norm ∉ st.seen) (hfp : findPage st.pages d norm = some ex)
    (hsucc : ex.status = 200 ∧ htmlTruthy ex = true) :
    processUrl env d sr st url = some { st with seen := norm :: st.seen } := by
  simp only [processUrl, if_neg hne, hn, if_pos hb, if_neg hfresh, hfp, if_pos hsucc]

lemma processUrl_retry (env : Web) (d sr : String) (st : CrawlState)
    {url norm : String} {ex : PageRecord} (hne : url ≠ "")
    (hn : normalizeUrl url = some norm) (hb : inBoundary norm sr = true)
    (hfresh : norm ∉ st.seen) (hfp : findPage st.pages d norm = some ex)
    (hnot : ¬(ex.status = 200 ∧ htmlTruthy ex = true)) :
    processUrl env d sr st url
      = some (processFetch env d sr
          (CrawlState.mk st.queue (norm :: st.seen) (deleteOnePage st.pages d norm)
            (deleteEdgesFrom st.links d norm) st.fetchedTrace st.now) norm) := by
  simp only [processUrl, if_neg hne, hn, if_pos hb, if_neg hfresh, hfp, if_neg hnot]

lemma processUrl_crash (env : Web) (d sr : String) (st : CrawlState)
    {url : String} (hne : url ≠ "") (hn : normalizeUrl url = none) :
    processUrl env d sr st url = none := by
  simp only [processUrl, if_neg hne, hn]

lemma normalizeUrl_empty : normalizeUrl "" = none := by decide

lemma pageMatches_fetchRecord_other {env : Web} {d sr norm X : String} {t : Nat}
    (h : norm ≠ X) : pageMatches d X (fetchRecord env d sr norm t) = false := by
  simp [pageMatches, fetchRecord_url, h]

lemma edgeFromMatches_fetchEdges_other {env : Web} {d sr norm X : String}
    (h : norm ≠ X) : ∀ e ∈ fetchEdges env d sr norm, edgeFromMatches d X e = false := by
  intro e he
  obtain ⟨_, hfrom, _, _⟩ := fetchEdges_parts env d sr norm e he
  simp [edgeFromMatches, hfrom, h]

lemma pagesFor_fetch_other {env : Web} {d sr norm X : String} (hX : norm ≠ X)
    (stm : CrawlState) :
    pagesFor (insertPageOnce stm.pages (fetchRecord env d sr norm stm.now)) d X
      = pagesFor stm.pages d X :=
  pagesFor_insert_other (pageMatches_fetchRecord_other hX)

lemma edgesFrom_fetch_other {env : Web} {d sr norm X : String} (hX : norm ≠ X)
    (stm : CrawlState) :
    edgesFrom (insertEdges stm.links (fetchEdges env d sr norm)) d X
      = edgesFrom stm.links d X := by
  rw [edgesFrom, insertEdges_filter_stable (edgeFromMatches_fetchEdges_other hX), ← edgesFrom]

lemma trace_append_other {norm X : String} (hX : norm ≠ X) (tr : List String) :
    (X ∉ tr → X ∉ tr ++ [norm]) ∧ (tr ++ [norm]).count X = tr.count X := by
  constructor
  · intro hmem hcon
    rcases List.mem_append.mp hcon with hc | hc
    · exact hmem hc
    · simp only [List.mem_singleton] at hc
      exact hX hc.symm
  · rw [List.count_append]
    simp [List.count_cons, hX]

/-- C1: strict resume — suppose the initial database holds exactly one
record `r` for `(dataset, X)` and the run claims `X` (it ends with `X` in
the seen set).  If `r` is a success with a non-empty body, the final
database still holds exactly `[r]` for `X` and `X` was never fetched this
run; if `r` was a failure, the final database holds exactly one record
for `X` — the latest attempt `fetchRecord` — the edges from `X` are
exactly the latest attempt's extracted in-boundary non-self links, and
`X` was fetched exactly once. -/
theorem c1_strict_resume (env : Web) (d : String) (pages0 : List PageRecord)
    (links0 : List LinkEdge) (fuel clk : Nat) (final : CrawlState)
    (seed sr X : String) (r : PageRecord)
    (hseed : DATASETS d = some seed) (hsr : siteRootFromSeed seed = some sr)
    (hprior : pagesFor pages0 d X = [r])
    (hrun : crawlDataset env d pages0 links0 fuel clk = some final)
    (hproc : X ∈ final.seen) :
    ((r.status = 200 ∧ htmlTruthy r = true) →
        pagesFor final.pages d X = [r] ∧ X ∉ final.fetchedTrace)
    ∧ (¬(r.status = 200 ∧ htmlTruthy r = true) →
        ∃ t, pagesFor final.pages d X = [fetchRecord env d sr X t]
          ∧ edgesFrom final.links d X = fetchEdges env d sr X
          ∧ final.fetchedTrace.count X = 1) := by
  obtain ⟨seed', sr', hseed', hsr', hloop⟩ := crawlDataset_run hrun
  rw [hseed'] at hseed
  injection hseed with hseed
  subst hseed
  rw [hsr'] at hsr
  injection hsr with hsr
  rw [hsr] at hloop
  have hinv := crawlLoop_inv env d sr
    (fun st =>
      (X ∉ st.seen → pagesFor st.pages d X = [r] ∧ X ∉ st.fetchedTrace)
      ∧ (X ∈ st.seen →
          ((r.status = 200 ∧ htmlTruthy r = true) →
              pagesFor st.pages d X = [r] ∧ X ∉ st.fetchedTrace)
          ∧ (¬(r.status = 200 ∧ htmlTruthy r = true) →
              ∃ t, pagesFor st.pages d X = [fetchRecord env d sr X t]
                ∧ edgesFrom st.links d X = fetchEdges env d sr X
                ∧ st.fetchedTrace.count X = 1)))
    (fun st q hP => hP)
    (by
      intro st url st' hP hpu
      by_cases hurl : url = ""
      · rw [processUrl_empty env d sr st hurl] at hpu
        injection hpu with h
        subst h
        exact hP
      · cases hn : normalizeUrl url with
        | none =>
          rw [processUrl_crash env d sr st hurl hn] at hpu
          exact absurd hpu (by simp)
        | some norm =>
          by_cases hb : inBoundary norm sr = true
          · by_cases hseen : norm ∈ st.seen
            · rw [processUrl_seen env d sr st hurl hn hb hseen] at hpu
              injection hpu with h
              subst h
              exact hP
            · by_cases hX : norm = X
              · subst hX
                obtain ⟨hpg, htr⟩ := hP.1 hseen
                by_cases hsucc : r.status = 200 ∧ htmlTruthy r = true
                · rw [processUrl_skip_success env d sr st hurl hn hb hseen
                    (findPage_of_pagesFor hpg) hsucc] at hpu
                  injection hpu with h
                  subst h
                  refine ⟨fun hns => absurd (List.mem_cons_self _ _) hns, fun _ => ?_⟩
                  exact ⟨fun _ => ⟨hpg, htr⟩, fun hf => absurd hsucc hf⟩
                · rw [processUrl_retry env d sr st hurl hn hb hseen
                    (findPage_of_pagesFor hpg) hsucc] at hpu
                  injection hpu with h
                  subst h
                  rw [processFetch_eq]
                  refine ⟨fun hns => ?_,
                    fun _ => ⟨fun hs => absurd hs hsucc, fun _ => ⟨st.now, ?_, ?_, ?_⟩⟩⟩
                  · exact absurd (List.mem_cons_self norm st.seen) (by simpa using hns)
                  · exact pagesFor_insert_match
                      (pageMatches_self (fetchRecord_dataset env d sr norm st.now)
                        (fetchRecord_url env d sr norm st.now))
                      (findPage_none_iff.mpr (pagesFor_deleteOne_self hpg))
                  · exact edgesFrom_insertEdges_clean
                      (edgesFrom_deleteEdgesFrom_self st.links d norm)
                      (fun e he => ⟨(fetchEdges_parts env d sr norm e he).1,
                        (fetchEdges_parts env d sr norm e he).2.1⟩)
                      (fetchEdges_nodup env d sr norm)
                  · rw [List.count_append, List.count_eq_zero.mpr htr]
                    simp
              · have hXr : X ≠ norm := fun hc => hX hc.symm
                have hseenEq : ∀ s : List String, (X ∉ norm :: s ↔ X ∉ s) := by
                  intro s
                  constructor
                  · intro hns hc
                    exact hns (List.mem_cons_of_mem _ hc)
                  · intro hns hc
                    rcases List.mem_cons.mp hc with hc | hc
                    · exact hXr hc
                    · exact hns hc
                cases hf : findPage st.pages d norm with
                | none =>
                  rw [processUrl_fresh_clean env d sr st url norm hurl hn hb hseen
                    (findPage_none_iff.mp hf)] at hpu
                  injection hpu with h
                  subst h
                  rw [processFetch_eq]
                  constructor
                  · intro hns
                    have hns' : X ∉ st.seen := (hseenEq st.seen).mp (by simpa using hns)
                    obtain ⟨h1, h2⟩ := hP.1 hns'
                    exact ⟨by rw [pagesFor_fetch_other hX]; exact h1,
                      (trace_append_other hX st.fetchedTrace).1 h2⟩
                  · intro hins
                    have hins' : X ∈ st.seen := by
                      rcases List.mem_cons.mp (by simpa using hins) with hc | hc
                      · exact absurd hc hXr
                      · exact hc
                    obtain ⟨hA, hB⟩ := hP.2 hins'
                    constructor
                    · intro hs
                      obtain ⟨h1, h2⟩ := hA hs
                      exact ⟨by rw [pagesFor_fetch_other hX]; exact h1,
                        (trace_append_other hX st.fetchedTrace).1 h2⟩
                    · intro hfail
                      obtain ⟨t, h1, h2, h3⟩ := hB hfail
                      exact ⟨t, by rw [pagesFor_fetch_other hX]; exact h1,
                        by rw [edgesFrom_fetch_other hX]; exact h2,
                        by rw [(trace_append_other hX st.fetchedTrace).2]; exact h3⟩
                | some ex =>
                  by_cases hsucc2 : ex.status = 200 ∧ htmlTruthy ex = true
                  · rw [processUrl_skip_success env d sr st hurl hn hb hseen hf hsucc2] at hpu
                    injection hpu with h
                    subst h
                    constructor
                    · intro hns
                      exact hP.1 ((hseenEq st.seen).mp (by simpa using hns))
                    · intro hins
                      have hins' : X ∈ st.seen := by
                        rcases List.mem_cons.mp (by simpa using hins) with hc | hc
                        · exact absurd hc hXr
                        · exact hc
                      exact hP.2 hins'
                  · rw [processUrl_retry env d sr st hurl hn hb hseen hf hsucc2] at hpu
                    injection hpu with h
                    subst h
                    rw [processFetch_eq]
                    have hpgOther : ∀ ps : List PageRecord,
                        pagesFor (deleteOnePage ps d norm) d X = pagesFor ps d X :=
                      fun ps => pagesFor_deleteOne_other (fun hc => hXr hc.2)
                    have hedOther : ∀ ls : List LinkEdge,
                        edgesFrom (deleteEdgesFrom ls d norm) d X = edgesFrom ls d X :=
                      fun ls => edgesFrom_deleteEdgesFrom_other (fun hc => hXr hc.2)
                    constructor
                    · intro hns
                      have hns' : X ∉ st.seen := (hseenEq st.seen).mp (by simpa using hns)
                      obtain ⟨h1, h2⟩ := hP.1 hns'
                      refine ⟨?_, (trace_append_other hX st.fetchedTrace).1 h2⟩
                      rw [pagesFor_fetch_other hX]
                      simp only [hpgOther]
                      exact h1
                    · intro hins
                      have hins' : X ∈ st.seen := by
                        rcases List.mem_cons.mp (by simpa using hins) with hc | hc
                        · exact absurd hc hXr
                        · exact hc
                      obtain ⟨hA, hB⟩ := hP.2 hins'
                      constructor
                      · intro hs
                        obtain ⟨h1, h2⟩ := hA hs
                        refine ⟨?_, (trace_append_other hX st.fetchedTrace).1 h2⟩
                        rw [pagesFor_fetch_other hX]
                        simp only [hpgOther]
                        exact h1
                      · intro hfail
                        obtain ⟨t, h1, h2, h3⟩ := hB hfail
                        refine ⟨t, ?_, ?_, ?_⟩
                        · rw [pagesFor_fetch_other hX]
                          simp only [hpgOther]
                          exact h1
                        · rw [edgesFrom_fetch_other hX]
                          simp only [hedOther]
                          exact h2
                        · rw [(trace_append_other hX st.fetchedTrace).2]
                          exact h3
          · have hb' : inBoundary norm sr = false := by
              cases hbb : inBoundary norm sr
              · rfl
              · exact absurd hbb hb
            rw [processUrl_out env d sr st hurl hn hb'] at hpu
            injection hpu with h
            subst h
            exact hP)
    fuel _ final hloop
    ⟨fun _ => ⟨hprior, by simp⟩, fun hc => absurd hc (by simp)⟩
  exact hinv.2 hproc

/-- A failed prior record for the tinyfruits seed, as a previous run
would have persisted it. -/
def failedSeedRec : PageRecord :=
  ⟨"tinyfruits", seedTiny, 0, none, [], 0, some "timeout of 20000ms exceeded"⟩

/-- A stale edge from the seed left by a previous run. -/
def staleSeedEdge : LinkEdge := ⟨"tinyfruits", seedTiny, pageTiny1⟩

/-- The result state of rerunning the tinyfruits crawl over a database
holding a failed seed record and a stale seed edge. -/
def finalResume : CrawlState :=
  (crawlDataset webTiny "tinyfruits" [failedSeedRec] [staleSeedEdge] 9 1).getD stEmpty

/-- Witness for C1: rerunning over a prior failed seed record yields
exactly one record for the seed — the latest attempt — and exactly the
latest attempt's edges, with the seed fetched exactly once. -/
theorem c1_strict_resume_witness :
    ∃ t, pagesFor finalResume.pages "tinyfruits" seedTiny
        = [fetchRecord webTiny "tinyfruits" rootTiny seedTiny t]
      ∧ edgesFrom finalResume.links "tinyfruits" seedTiny
          = fetchEdges webTiny "tinyfruits" rootTiny seedTiny
      ∧ finalResume.fetchedTrace.count seedTiny = 1 :=
  (c1_strict_resume webTiny "tinyfruits" [failedSeedRec] [staleSeedEdge] 9 1 finalResume
    seedTiny rootTiny seedTiny failedSeedRec (by decide) (by decide) (by decide)
    (by decide) (by decide)).2 (by decide)

/-- Frontier invariant for the termination argument: every queue entry is
the seed or a canonicalizer output (so dequeue never throws), every queue
entry's canonical in-boundary form lies in the finite URL space `S`, the
seen set is a duplicate-free subset of `S`, and the fetch count is
bounded by the seen count. -/
def c9Frontier (sr seed : String) (S : Finset String) (st : CrawlState) : Prop :=
  (∀ q ∈ st.queue, q = seed ∨ ∃ s0, normalizeUrl s0 = some q)
  ∧ (∀ q ∈ st.queue, ∀ m, normalizeUrl q = some m → inBoundary m sr = true → m ∈ S)
  ∧ (∀ x ∈ st.seen, x ∈ S)
  ∧ st.seen.Nodup
  ∧ st.fetchedTrace.length ≤ st.seen.length

/-- Termination measure of the frontier loop: unseen boundary URLs
weighted by the enqueue bound, plus the queue length. -/
def c9Measure (S : Finset String) (B : Nat) (st : CrawlState) : Nat :=
  (S \ st.seen.toFinset).card * (B + 2) + st.queue.length

lemma DATASETS_norm {d seed : String} (h : DATASETS d = some seed) :
    (normalizeUrl seed).isSome = true := by
  rw [DATASETS] at h
  split_ifs at h <;>
    first
      | (injection h with h; subst h; decide)
      | exact absurd h (by simp)

lemma c9_step (env : Web) (d sr seed : String) (S : Finset String) (B : Nat)
    (hB : ∀ n ∈ S, ((fetchRecord env d sr n 0).outLinks).length ≤ B)
    (hseedN : (normalizeUrl seed).isSome = true)
    (hclosed : ∀ n ∈ S, ∀ l ∈ (fetchRecord env d sr n 0).outLinks,
        ∀ m, normalizeUrl l = some m → inBoundary m sr = true → m ∈ S) :
    ∀ (st : CrawlState) (url : String) (rest : List String), st.queue = url :: rest →
      c9Frontier sr seed S st →
      ∃ st', processUrl env d sr { st with queue := rest } url = some st'
        ∧ c9Frontier sr seed S st'
        ∧ c9Measure S B st' < c9Measure S B st := by
  intro st url rest hq hQ
  obtain ⟨hQ1, hQ2, hQ3, hQ4, hQ5⟩ := hQ
  have hurlmem : url ∈ st.queue := by rw [hq]; simp
  have hQrest : c9Frontier sr seed S { st with queue := rest } :=
    ⟨fun q hqm => hQ1 q (by rw [hq]; simp [hqm]),
      fun q hqm => hQ2 q (by rw [hq]; simp [hqm]), hQ3, hQ4, hQ5⟩
  have hmeasure_tail : c9Measure S B { st with queue := rest } < c9Measure S B st := by
    simp only [c9Measure, hq]
    simp
  by_cases hurl : url = ""
  · exact ⟨_, processUrl_empty env d sr _ hurl, hQrest, hmeasure_tail⟩
  · have hnorm : ∃ norm, normalizeUrl url = some norm := by
      rcases hQ1 url hurlmem with rfl | ⟨s0, hs0⟩
      · cases hu : normalizeUrl url with
        | none => rw [hu] at hseedN; simp at hseedN
        | some n => exact ⟨n, rfl⟩
      · have := normalizeUrl_renorm_isSome hs0
        cases hu : normalizeUrl url with
        | none => rw [hu] at this; simp at this
        | some n => exact ⟨n, rfl⟩
    obtain ⟨norm, hn⟩ := hnorm
    by_cases hb : inBoundary norm sr = true
    · by_cases hseen : norm ∈ st.seen
      · exact ⟨_, processUrl_seen env d sr _ hurl hn hb hseen, hQrest, hmeasure_tail⟩
      · have hnS : norm ∈ S := hQ2 url hurlmem norm hn hb
        have hcard : (S \ (norm :: st.seen).toFinset).card + 1
            = (S \ st.seen.toFinset).card := by
          have hsd : S \ (norm :: st.seen).toFinset
              = (S \ st.seen.toFinset).erase norm := by
            ext a
            simp only [Finset.mem_sdiff, List.toFinset_cons, Finset.mem_insert,
              Finset.mem_erase, List.mem_toFinset]
            constructor
            · rintro ⟨ha, hb2⟩
              push_neg at hb2
              exact ⟨hb2.1, ha, fun hc => hb2.2 (by simpa using hc)⟩
            · rintro ⟨h1, h2, h3⟩
              exact ⟨h2, by
                push_neg
                exact ⟨h1, by simpa using h3⟩⟩
          rw [hsd, Finset.card_erase_of_mem (by
            simp only [Finset.mem_sdiff, List.mem_toFinset]
            exact ⟨hnS, hseen⟩)]
          have hpos : 0 < (S \ st.seen.toFinset).card := by
            refine Finset.card_pos.mpr ⟨norm, ?_⟩
            simp only [Finset.mem_sdiff, List.mem_toFinset]
            exact ⟨hnS, hseen⟩
          omega
        have henqlen : (fetchEnqueue env d sr norm).length ≤ B := by
          calc (fetchEnqueue env d sr norm).length
              ≤ ((fetchRecord env d sr norm 0).outLinks).length :=
                List.length_filter_le _ _
            _ ≤ B := hB norm hnS
        have hQfetch : ∀ stm : CrawlState,
            stm.queue = rest → stm.seen = norm :: st.seen →
            stm.fetchedTrace = st.fetchedTrace →
            c9Frontier sr seed S
              { stm with
                pages := insertPageOnce stm.pages (fetchRecord env d sr norm stm.now),
                links := insertEdges stm.links (fetchEdges env d sr norm),
                queue := stm.queue ++ fetchEnqueue env d sr norm,
                fetchedTrace := stm.fetchedTrace ++ [norm],
                now := stm.now + 1 } := by
          intro stm hmq hms hmt
          refine ⟨?_, ?_, ?_, ?_, ?_⟩
          · intro q hqm
            simp only [hmq, List.mem_append] at hqm
            rcases hqm with hqm | hqm
            · exact hQ1 q (by rw [hq]; simp [hqm])
            · right
              have hmem : q ∈ (fetchRecord env d sr norm 0).outLinks :=
                List.mem_of_mem_filter hqm
              exact (fetchRecord_outLinks_bound env d sr norm 0 q hmem).2
          · intro q hqm m hm hbm
            simp only [hmq, List.mem_append] at hqm
            rcases hqm with hqm | hqm
            · exact hQ2 q (by rw [hq]; simp [hqm]) m hm hbm
            · exact hclosed norm hnS q (List.mem_of_mem_filter hqm) m hm hbm
          · intro x hx
            simp only [hms, List.mem_cons] at hx
            rcases hx with rfl | hx
            · exact hnS
            · exact hQ3 x hx
          · simp only [hms, List.nodup_cons]
            exact ⟨hseen, hQ4⟩
          · simp only [hmt, hms]
            simp
            omega
        have hmeasure_fetch : ∀ stm : CrawlState,
            stm.queue = rest → stm.seen = norm :: st.seen →
            c9Measure S B
              { stm with
                pages := insertPageOnce stm.pages (fetchRecord env d sr norm stm.now),
                links := insertEdges stm.links (fetchEdges env d sr norm),
                queue := stm.queue ++ fetchEnqueue env d sr norm,
                fetchedTrace := stm.fetchedTrace ++ [norm],
                now := stm.now + 1 } < c9Measure S B st := by
          intro stm hmq hms
          simp only [c9Measure, hmq, hms, List.length_append, hq, List.length_cons]
          have h1 := hcard
          have h2 := henqlen
          set k := (S \ (norm :: st.seen).toFinset).card
          rw [← h1]
          have : k * (B + 2) + B < (k + 1) * (B + 2) := by
            have : (k + 1) * (B + 2) = k * (B + 2) + (B + 2) := by ring
            omega
          omega
        cases hf : findPage st.pages d norm with
        | none =>
          refine ⟨_, processUrl_fresh_clean env d sr _ url norm hurl hn hb hseen
            (findPage_none_iff.mp hf), ?_, ?_⟩
          · rw [processFetch_eq]
            exact hQfetch _ rfl rfl rfl
          · rw [processFetch_eq]
            exact hmeasure_fetch _ rfl rfl
        | some ex =>
          by_cases hsucc : ex.status = 200 ∧ htmlTruthy ex = true
          · refine ⟨_, processUrl_skip_success env d sr _ hurl hn hb hseen hf hsucc, ?_, ?_⟩
            · refine ⟨fun q hqm => hQ1 q (by rw [hq]; simp_all),
                fun q hqm => hQ2 q (by rw [hq]; simp_all), ?_, ?_, ?_⟩
              · intro x hx
                simp only [List.mem_cons] at hx
                rcases hx with rfl | hx
                · exact hnS
                · exact hQ3 x hx
              · simp only [List.nodup_cons]
                exact ⟨hseen, hQ4⟩
              · simp only [List.length_cons]
                omega
            · simp only [c9Measure, hq, List.length_cons]
              rw [← hcard]
              set k := (S \ (norm :: st.seen).toFinset).card
              have : k * (B + 2) < (k + 1) * (B + 2) := by
                have : (k + 1) * (B + 2) = k * (B + 2) + (B + 2) := by ring
                omega
              omega
          · refine ⟨_, processUrl_retry env d sr _ hurl hn hb hseen hf hsucc, ?_, ?_⟩
            · rw [processFetch_eq]
              exact hQfetch _ rfl rfl rfl
            · rw [processFetch_eq]
              exact hmeasure_fetch _ rfl rfl
    · have hb' : inBoundary norm sr = false := by
        cases hbb : inBoundary norm sr
        · rfl
        · exact absurd hbb hb
      exact ⟨_, processUrl_out env d sr _ hurl hn hb', hQrest, hmeasure_tail⟩

lemma c9_loop (env : Web) (d sr seed : String) (S : Finset String) (B : Nat)
    (hB : ∀ n ∈ S, ((fetchRecord env d sr n 0).outLinks).length ≤ B)
    (hseedN : (normalizeUrl seed).isSome = true)
    (hclosed : ∀ n ∈ S, ∀ l ∈ (fetchRecord env d sr n 0).outLinks,
        ∀ m, normalizeUrl l = some m → inBoundary m sr = true → m ∈ S) :
    ∀ (N : Nat) (st : CrawlState), c9Frontier sr seed S st → c9Measure S B st ≤ N →
      ∃ final, crawlLoop env d sr N st = some final ∧ final.queue = []
        ∧ c9Frontier sr seed S final := by
  intro N
  induction N with
  | zero =>
    intro st hQ hm
    cases hq : st.queue with
    | nil => exact ⟨st, crawlLoop_nil env d sr 0 st hq, hq, hQ⟩
    | cons url rest =>
      exfalso
      have h1 : 1 ≤ c9Measure S B st := by
        simp only [c9Measure, hq, List.length_cons]
        omega
      omega
  | succ n ih =>
    intro st hQ hm
    cases hq : st.queue with
    | nil => exact ⟨st, crawlLoop_nil env d sr (n + 1) st hq, hq, hQ⟩
    | cons url rest =>
      obtain ⟨st', hpu, hQ', hlt⟩ :=
        c9_step env d sr seed S B hB hseedN hclosed st url rest hq hQ
      rw [crawlLoop_cons env d sr n st url rest hq, hpu, Option.some_bind]
      exact ih st' hQ' (by omega)

/-- C9: frontier termination — if the boundary URL space reachable from
the seed is finite (a finite set `S` contains the seed's canonical form
and is closed under canonicalized in-boundary out-links of fetches), the
crawl terminates: there is a fuel for which `crawlDataset` completes with
an empty frontier, and the number of fetches is bounded by the number of
boundary URLs in `S`. -/
theorem c9_frontier_termination (env : Web) (d : String) (pages0 : List PageRecord)
    (links0 : List LinkEdge) (clk : Nat) (seed sr : String) (S : Finset String)
    (hseed : DATASETS d = some seed) (hsr : siteRootFromSeed seed = some sr)
    (hseedS : ∀ n, normalizeUrl seed = some n → inBoundary n sr = true → n ∈ S)
    (hclosed : ∀ n ∈ S, ∀ l ∈ (fetchRecord env d sr n 0).outLinks,
        ∀ m, normalizeUrl l = some m → inBoundary m sr = true → m ∈ S) :
    ∃ fuel final, crawlDataset env d pages0 links0 fuel clk = some final
      ∧ final.queue = []
      ∧ final.fetchedTrace.length ≤ S.card := by
  have hB : ∀ n ∈ S, ((fetchRecord env d sr n 0).outLinks).length
      ≤ S.sup (fun n => ((fetchRecord env d sr n 0).outLinks).length) :=
    fun n hn => @Finset.le_sup Nat String _ _ S
      (fun n => ((fetchRecord env d sr n 0).outLinks).length) n hn
  have hQ0 : c9Frontier sr seed S ⟨[seed], [], pages0, links0, [], clk⟩ := by
    refine ⟨?_, ?_, ?_, ?_, ?_⟩
    · intro q hqm
      left
      simpa using hqm
    · intro q hqm m hm hbm
      have hqs : q = seed := by simpa using hqm
      subst hqs
      exact hseedS m hm hbm
    · intro x hx
      simp at hx
    · simp
    · simp
  obtain ⟨final, hloop, hempty, hQf⟩ :=
    c9_loop env d sr seed S (S.sup (fun n => ((fetchRecord env d sr n 0).outLinks).length))
      hB (DATASETS_norm hseed) hclosed
      (c9Measure S (S.sup (fun n => ((fetchRecord env d sr n 0).outLinks).length))
        ⟨[seed], [], pages0, links0, [], clk⟩)
      ⟨[seed], [], pages0, links0, [], clk⟩ hQ0 le_rfl
  refine ⟨c9Measure S (S.sup (fun n => ((fetchRecord env d sr n 0).outLinks).length))
      ⟨[seed], [], pages0, links0, [], clk⟩, final, ?_, hempty, ?_⟩
  · rw [crawlDataset]
    simp only [hseed, hsr]
    exact hloop
  · obtain ⟨_, _, hsub, hnd, hlen⟩ := hQf
    calc final.fetchedTrace.length ≤ final.seen.length := hlen
      _ = final.seen.toFinset.card := (List.toFinset_card_of_nodup hnd).symm
      _ ≤ S.card := Finset.card_le_card (fun x hx => hsub x (List.mem_toFinset.mp hx))

theorem c9_frontier_termination_witness :
    ∃ fuel final, crawlDataset webTiny "tinyfruits" [] [] fuel 0 = some final
      ∧ final.queue = []
      ∧ final.fetchedTrace.length ≤ ({seedTiny, pageTiny1} : Finset String).card := by
  refine c9_frontier_termination webTiny "tinyfruits" [] [] 0 seedTiny rootTiny
      {seedTiny, pageTiny1} (by decide) (by decide) ?_ ?_
  · intro n hn _
    have h0 : normalizeUrl seedTiny = some seedTiny := by decide
    rw [h0] at hn
    cases hn
    simp
  · intro n hnS l hl m hm _
    rcases Finset.mem_insert.mp hnS with h | h
    · subst h
      have houtl : (fetchRecord webTiny "tinyfruits" rootTiny seedTiny 0).outLinks
          = [pageTiny1, seedTiny] := by decide
      rw [houtl] at hl
      rcases List.mem_cons.mp hl with rfl | hl
      · have h1 : normalizeUrl pageTiny1 = some pageTiny1 := by decide
        rw [h1] at hm
        cases hm
        simp
      · rcases List.mem_cons.mp hl with rfl | hl
        · have h2 : normalizeUrl seedTiny = some seedTiny := by decide
          rw [h2] at hm
          cases hm
          simp
        · simp at hl
    · have h' : n = pageTiny1 := by simpa using h
      subst h'
      have houtl : (fetchRecord webTiny "tinyfruits" rootTiny pageTiny1 0).outLinks = [] := by
        decide
      rw [houtl] at hl
      simp at hl
